import Mathlib

/-!
Verification development for the `blogs-crawler` repository.

The Python sources are shallowly embedded as Lean functions over `List Char`
(strings are modelled as character lists so that proofs can proceed by list
induction).  Fallible operations (Python code that can raise) return `Option`.

The embedding covers:
* `urllib.parse` (`urlsplit` / `urlparse` / `urljoin` as in CPython 3.11),
  which `crawler/utils.py`, `crawler/spiders/base.py`,
  `crawler/framework_detector.py` and `crawler/pipelines.py` rely on;
* `crawler/framework_detector.py` (detection cascade and domain cache);
* `crawler/middlewares.py` (`CacheMiddleware` preload / lookup);
* `crawler/pipelines.py` (`MarkdownSavePipeline` path derivation and
  front-matter serialisation);
* `crawler/converters/base.py` and `crawler/utils.py` (selector-driven
  extraction with error containment);
* the three Markdown URL rewrites of `BlogSpider._convert_markdown_urls`.
-/

namespace BC

abbrev Chars := List Char

/-- Python `str.lower()` restricted to ASCII (the only case exercised by the
scheme names and domains the code lowercases). -/
def lowerChars (l : Chars) : Chars := l.map Char.toLower

/-- Removal of `\t`, `\r`, `\n` performed by `urllib.parse.urlsplit`
(`_UNSAFE_URL_BYTES_TO_REMOVE`). -/
def removeUnsafe (l : Chars) : Chars :=
  l.filter fun c => ¬ (c = '\t' ∨ c = '\r' ∨ c = '\n')

/-- Membership in `_WHATWG_C0_CONTROL_OR_SPACE` (code points `0x00`–`0x20`). -/
def isC0OrSpace (c : Char) : Bool := c.toNat ≤ 32

/-- The `url.lstrip(_WHATWG_C0_CONTROL_OR_SPACE)` step of `urlsplit`. -/
def lstripC0 (l : Chars) : Chars := l.dropWhile isC0OrSpace

/-- The `scheme.strip(_WHATWG_C0_CONTROL_OR_SPACE)` step of `urlsplit`
(both ends). -/
def stripC0 (l : Chars) : Chars :=
  ((l.dropWhile isC0OrSpace).reverse.dropWhile isC0OrSpace).reverse

/-- Python `url.split(ch, 1)` combined with the `if ch in url` guard used by
`urlsplit`: returns `(before-first-occurrence, after-first-occurrence)`, and
`(l, [])` when the character is absent. -/
def splitOnFirst (ch : Char) (l : Chars) : Chars × Chars :=
  (l.takeWhile (fun c => c ≠ ch), (l.dropWhile (fun c => c ≠ ch)).drop 1)

/-- The suffix of `u` strictly after its last `'/'` (all of `u` when `'/'` is
absent).  Mirrors Python's `url[url.rfind('/') + 1:]`. -/
def afterLastSlash (u : Chars) : Chars :=
  (u.reverse.takeWhile (fun c => c ≠ '/')).reverse

/-- The prefix of `u` up to and including its last `'/'` (empty when `'/'` is
absent). -/
def beforeLastSlash (u : Chars) : Chars :=
  (u.reverse.dropWhile (fun c => c ≠ '/')).reverse

/-- Characters allowed in a URL scheme (`urllib.parse.scheme_chars`). -/
def isSchemeChar (c : Char) : Bool :=
  c.isAlpha || c.isDigit || c = '+' || c = '-' || c = '.'

/-- The scheme-prefix validity test of `urlsplit`: the text before the first
colon is non-empty, starts with an ASCII letter and consists of scheme
characters only. -/
def validSchemeText (pre : Chars) : Bool :=
  (match pre.head? with
   | some c => c.isAlpha
   | none => false) && pre.all isSchemeChar

/-- The scheme-splitting step of `urlsplit`: if the prefix before the first
`':'` is a valid scheme it is lowercased and removed, otherwise the URL is
left whole and no scheme is extracted. -/
def schemeSplit (l : Chars) : Chars × Chars :=
  match l.dropWhile (fun c => c ≠ ':') with
  | ':' :: rest =>
    let pre := l.takeWhile (fun c => c ≠ ':')
    if pre ≠ [] ∧ validSchemeText pre then (lowerChars pre, rest) else ([], l)
  | _ => ([], l)

/-- Characters that terminate the netloc in `_splitnetloc` (`'/'`, `'?'`, `'#'`). -/
def notDelim (c : Char) : Bool := c ≠ '/' && c ≠ '?' && c ≠ '#'

/-- The "Invalid IPv6 URL" test of `urlsplit`: one bracket present without the
other. -/
def bracketBad (n : Chars) : Bool :=
  ('[' ∈ n ∧ ']' ∉ n) ∨ (']' ∈ n ∧ '[' ∉ n)

/-- ASCII hexadecimal digit. -/
def isHexDigitChar (c : Char) : Bool :=
  c.isDigit || ('a' ≤ c ∧ c ≤ 'f') || ('A' ≤ c ∧ c ≤ 'F')

/-- Approximation of `_check_bracketed_host` for a netloc carrying both
brackets: an IPvFuture host must match `v[hexdigits]+\..+`; otherwise the
host must look like an IPv6 address.  `ipaddress.ip_address` is modelled
coarsely (hex digits, colons and dots, with at least one colon, rejecting
the bracketed-IPv4 case); the check is only ever re-applied to a netloc it
already accepted, so this approximation is consistent across re-parses. -/
def bracketedHostBad (n : Chars) : Bool :=
  if '[' ∈ n ∧ ']' ∈ n then
    let host := (splitOnFirst ']' (splitOnFirst '[' n).2).1
    match host with
    | 'v' :: rest =>
      let hexRun := rest.takeWhile isHexDigitChar
      ¬ (hexRun ≠ [] ∧ (rest.drop hexRun.length).take 1 = ['.'] ∧
          (rest.drop hexRun.length).drop 1 ≠ [])
    | _ =>
      ¬ (host ≠ [] ∧ ':' ∈ host ∧
          host.all fun c => isHexDigitChar c || c = ':' || c = '.' || c = '%')
  else false

structure SplitParts where
  scheme : Chars
  netloc : Chars
  path : Chars
  query : Chars
  fragment : Chars
deriving DecidableEq, Repr

structure ParseParts where
  scheme : Chars
  netloc : Chars
  path : Chars
  params : Chars
  query : Chars
  fragment : Chars
deriving DecidableEq, Repr

/-- `urllib.parse.uses_relative`. -/
def usesRelative : List Chars :=
  [[], "ftp".data, "http".data, "gopher".data, "nntp".data, "imap".data,
   "wais".data, "file".data, "https".data, "shttp".data, "mms".data,
   "prospero".data, "rtsp".data, "rtspu".data, "sftp".data,
   "svn".data, "svn+ssh".data, "ws".data, "wss".data]

/-- `urllib.parse.uses_netloc`. -/
def usesNetloc : List Chars :=
  [[], "ftp".data, "http".data, "gopher".data, "nntp".data, "telnet".data,
   "imap".data, "wais".data, "file".data, "mms".data, "https".data,
   "shttp".data, "snews".data, "prospero".data, "rtsp".data, "rtspu".data,
   "rsync".data, "svn".data, "svn+ssh".data, "sftp".data, "nfs".data,
   "git".data, "git+ssh".data, "ws".data, "wss".data]

/-- `urllib.parse.uses_params`. -/
def usesParams : List Chars :=
  [[], "ftp".data, "hdl".data, "prospero".data, "http".data, "imap".data,
   "https".data, "shttp".data, "rtsp".data, "rtspu".data, "sip".data,
   "sips".data, "mms".data, "sftp".data, "tel".data]

/-- `_splitnetloc` step: `(netloc, rest)` when the URL remainder starts with
`//`, otherwise no netloc. -/
def splitNetloc (rest : Chars) : Chars × Chars :=
  if rest.take 2 = ['/', '/'] then
    ((rest.drop 2).takeWhile notDelim, (rest.drop 2).dropWhile notDelim)
  else ([], rest)

/-- The raising-free computation of `urlsplit` on the sanitised URL and
default scheme. -/
def urlsplitCore (url1 ds : Chars) : SplitParts :=
  let sr := schemeSplit url1
  let scheme := if sr.1 = [] then ds else sr.1
  let nl := splitNetloc sr.2
  let fr := splitOnFirst '#' nl.2
  let qr := splitOnFirst '?' fr.1
  ⟨scheme, nl.1, qr.1, qr.2, fr.2⟩

/-- `urllib.parse.urlsplit` (CPython 3.11), with raising modelled as `none`.
The `_checknetloc` NFKC guard, which can only fire on exotic non-ASCII
netlocs, is not modelled; the "Invalid IPv6 URL" bracket check and the
bracketed-host validation are. -/
def urlsplitQ (url0 dscheme0 : Chars) : Option SplitParts :=
  let sp := urlsplitCore (removeUnsafe (lstripC0 url0)) (removeUnsafe (stripC0 dscheme0))
  if bracketBad sp.netloc ∨ bracketedHostBad sp.netloc then none else some sp

/-- `urllib.parse._splitparams`.  (The branch Python reaches only with a
semicolon present is modelled totally, returning no params when the semicolon
is absent.) -/
def splitparamsFn (u : Chars) : Chars × Chars :=
  if '/' ∈ u then
    let b := afterLastSlash u
    if ';' ∈ b then
      let s := splitOnFirst ';' b
      (beforeLastSlash u ++ s.1, s.2)
    else (u, [])
  else if ';' ∈ u then splitOnFirst ';' u else (u, [])

/-- The parameter-separation step of `urlparse`. -/
def urlparseCore (sp : SplitParts) : ParseParts :=
  if sp.scheme ∈ usesParams ∧ ';' ∈ sp.path then
    let s := splitparamsFn sp.path
    ⟨sp.scheme, sp.netloc, s.1, s.2, sp.query, sp.fragment⟩
  else ⟨sp.scheme, sp.netloc, sp.path, [], sp.query, sp.fragment⟩

/-- `urllib.parse.urlparse` (split plus parameter separation). -/
def urlparseQ (url ds : Chars) : Option ParseParts :=
  (urlsplitQ url ds).map urlparseCore

/-- `urllib.parse.urlunsplit` (CPython 3.11). -/
def urlunsplit (scheme netloc url query fragment : Chars) : Chars :=
  let url1 :=
    if netloc ≠ [] ∨ (scheme ≠ [] ∧ scheme ∈ usesNetloc ∧ url.take 2 ≠ ['/', '/']) then
      let u := if url ≠ [] ∧ url.head? ≠ some '/' then '/' :: url else url
      '/' :: '/' :: (netloc ++ u)
    else url
  let url2 := if scheme ≠ [] then scheme ++ ':' :: url1 else url1
  let url3 := if query ≠ [] then url2 ++ '?' :: query else url2
  if fragment ≠ [] then url3 ++ '#' :: fragment else url3

/-- `urllib.parse.urlunparse`. -/
def urlunparse (p : ParseParts) : Chars :=
  urlunsplit p.scheme p.netloc
    (if p.params ≠ [] then p.path ++ ';' :: p.params else p.path) p.query p.fragment

/-- Python `str.split(ch)` (never returns an empty list; `""` yields `[""]`). -/
def splitOnChar (ch : Char) : Chars → List Chars
  | [] => [[]]
  | c :: cs =>
    if c = ch then [] :: splitOnChar ch cs
    else
      match splitOnChar ch cs with
      | h :: t => (c :: h) :: t
      | [] => [[c]]

/-- Python `str.split('/')`. -/
def splitSlash : Chars → List Chars := splitOnChar '/'

/-- Python `'/'.join`. -/
def joinSlash : List Chars → Chars
  | [] => []
  | [x] => x
  | x :: y :: t => x ++ '/' :: joinSlash (y :: t)

/-- `segments[1:-1] = filter(None, segments[1:-1])` applied to the tail of a
segment list: drops empty segments but keeps the final one. -/
def filterInner : List Chars → List Chars
  | [] => []
  | [x] => [x]
  | x :: y :: t => if x = [] then filterInner (y :: t) else x :: filterInner (y :: t)

/-- `filter(None, ...)` on everything strictly between the first and last
segment. -/
def keepEndsFilterEmpty : List Chars → List Chars
  | [] => []
  | x :: xs => x :: filterInner xs

/-- The relative-path resolution loop of `urljoin` (Python `list.pop()` on an
empty list is ignored, matching the `except IndexError: pass`). -/
def resolveSegs (segs : List Chars) : List Chars :=
  segs.foldl
    (fun acc seg =>
      if seg = ['.', '.'] then acc.dropLast
      else if seg = ['.'] then acc
      else acc ++ [seg]) []

/-- `urllib.parse.urljoin` (CPython 3.11), with raising modelled as `none`. -/
def urljoinQ (base url : Chars) : Option Chars :=
  if base = [] then some url
  else if url = [] then some base
  else do
    let b ← urlparseQ base []
    let p ← urlparseQ url b.scheme
    if p.scheme ≠ b.scheme ∨ p.scheme ∉ usesRelative then
      return url
    else if p.scheme ∈ usesNetloc ∧ p.netloc ≠ [] then
      return urlunparse ⟨p.scheme, p.netloc, p.path, p.params, p.query, p.fragment⟩
    else
      let netloc := if p.scheme ∈ usesNetloc then b.netloc else p.netloc
      if p.path = [] ∧ p.params = [] then
        return urlunparse ⟨p.scheme, netloc, b.path, b.params,
          (if p.query = [] then b.query else p.query), p.fragment⟩
      else
        let baseParts0 := splitSlash b.path
        let baseParts :=
          if baseParts0.getLast? ≠ some [] then baseParts0.dropLast else baseParts0
        let segments :=
          if p.path.head? = some '/' then splitSlash p.path
          else keepEndsFilterEmpty (baseParts ++ splitSlash p.path)
        let resolved0 := resolveSegs segments
        let resolved :=
          if segments.getLast? = some ['.'] ∨ segments.getLast? = some ['.', '.'] then
            resolved0 ++ [[]]
          else resolved0
        let rp := joinSlash resolved
        return urlunparse ⟨p.scheme, netloc, (if rp = [] then ['/'] else rp),
          p.params, p.query, p.fragment⟩

/-! ### Generic helpers shared by the component models -/

/-- First-occurrence split: `some (before, after)` when `ch` occurs in `l`. -/
def breakFirst (ch : Char) (l : Chars) : Option (Chars × Chars) :=
  if ch ∈ l then some (l.takeWhile (fun c => c ≠ ch), (l.dropWhile (fun c => c ≠ ch)).drop 1)
  else none

/-- First occurrence of the pattern `pat` in a list: `some (before, after)`
splits around the earliest occurrence (Python `str.find` plus slicing). -/
def breakFirstSeq (pat : Chars) : Chars → Option (Chars × Chars)
  | [] => if pat = [] then some ([], []) else none
  | c :: cs =>
    if pat <+: (c :: cs) then some ([], (c :: cs).drop pat.length)
    else
      match breakFirstSeq pat cs with
      | some (a, b) => some (c :: a, b)
      | none => none

/-- Python substring containment (`pattern in text`). -/
def isSubstrOf (p l : Chars) : Bool := decide (p <:+: l)

/-- Python `str.startswith`. -/
def startsWithL (l p : Chars) : Bool := decide (p <+: l)

/-- Python `str.endswith`. -/
def endsWithL (l suf : Chars) : Bool := decide (suf <:+ l)

/-- Python `str.strip()` restricted to ASCII whitespace (the pages and
metadata handled by the crawler). -/
def isPySpace (c : Char) : Bool :=
  c = ' ' || c = '\t' || c = '\n' || c = '\r' || c = '\x0b' || c = '\x0c'

/-- Python `str.strip()`. -/
def pyStrip (l : Chars) : Chars :=
  ((l.dropWhile isPySpace).reverse.dropWhile isPySpace).reverse

/-! ### `crawler/framework_detector.py` -/

/-- One value of the `frameworks:` mapping of `framework_config.yaml`: the
pattern lists read through `FrameworkConfigLoader.get_patterns` (missing keys
default to empty lists, as the `.get(..., [])` calls do). -/
structure FwEntry where
  urlPatterns : List Chars
  htmlPatterns : List Chars
  metaPatterns : List Chars
deriving DecidableEq, Repr

/-- The `frameworks:` mapping in configuration-file order (Python dicts keep
insertion order, which `get_supported_frameworks` exposes as a list). -/
abbrev FwConfig := List (Chars × FwEntry)

/-- `FrameworkConfigLoader.get_framework_config`: fall back to the `unknown`
entry for missing names, and to an empty config when even that is absent. -/
def getFrameworkConfig (cfg : FwConfig) (fw : Chars) : FwEntry :=
  match cfg.lookup fw with
  | some e => e
  | none =>
    match cfg.lookup "unknown".data with
    | some e => e
    | none => ⟨[], [], []⟩

/-- `FrameworkConfigLoader.get_supported_frameworks` (the mapping keys). -/
def supportedFrameworks (cfg : FwConfig) : List Chars := cfg.map Prod.fst

/-- The domain cache (`FrameworkDetector._domain_cache`); lookup is by key, a
fresh key is consed on. -/
abbrev DomainCache := List (Chars × Chars)

/-- The inner double loop of `FrameworkDetector._detect_by_url`: first
framework (in configuration order) one of whose URL patterns is a substring
of the domain or the path. -/
def detectByUrlScan (cfg : FwConfig) (domain path : Chars) : List Chars → Option Chars
  | [] => none
  | fw :: rest =>
    if ((getFrameworkConfig cfg fw).urlPatterns).any
        (fun p => isSubstrOf p domain || isSubstrOf p path) then some fw
    else detectByUrlScan cfg domain path rest

/-- `FrameworkDetector._detect_by_url` (with the domain cache threaded
explicitly; `urlparse` failure propagates as `none`). -/
def FrameworkDetector_detectByUrl (cfg : FwConfig) (cache : DomainCache) (url : Chars) :
    Option (Chars × DomainCache) :=
  (urlparseQ url []).map fun pr =>
    let domain := lowerChars pr.netloc
    let path := lowerChars pr.path
    match cache.lookup domain with
    | some f => (f, cache)
    | none =>
      match detectByUrlScan cfg domain path (supportedFrameworks cfg) with
      | some fw => (fw, (domain, fw) :: cache)
      | none => ("unknown".data, cache)

/-- The page object seen by the detector: its URL, its body text, and the
results of the two `meta` CSS queries of `_detect_by_meta`
(`None` → `Option.none`). -/
structure DetResponse where
  url : Chars
  text : Chars
  metaGenerator : Option Chars
  metaTheme : Option Chars

/-- The scan of `FrameworkDetector._detect_by_html`. -/
def detectByHtmlScan (cfg : FwConfig) (html : Chars) : List Chars → Option Chars
  | [] => none
  | fw :: rest =>
    if ((getFrameworkConfig cfg fw).htmlPatterns).any (fun p => isSubstrOf p html) then
      some fw
    else detectByHtmlScan cfg html rest

/-- `FrameworkDetector._detect_by_html`. -/
def FrameworkDetector_detectByHtml (cfg : FwConfig) (text : Chars) : Chars :=
  match detectByHtmlScan cfg (lowerChars text) (supportedFrameworks cfg) with
  | some fw => fw
  | none => "unknown".data

/-- `FrameworkDetector._detect_by_meta`: hard-coded generator / theme names,
independent of the loaded configuration. -/
def FrameworkDetector_detectByMeta (r : DetResponse) : Chars :=
  let fromGen : Option Chars :=
    match r.metaGenerator with
    | some g =>
      if g ≠ [] then
        let gl := lowerChars g
        if isSubstrOf "mkdocs".data gl then some "mkdocs".data
        else if isSubstrOf "sphinx".data gl then some "sphinx".data
        else none
      else none
    | none => none
  match fromGen with
  | some f => f
  | none =>
    match r.metaTheme with
    | some t =>
      if t ≠ [] ∧ isSubstrOf "docsify".data (lowerChars t) then "docsify".data
      else "unknown".data
    | none => "unknown".data

/-- `FrameworkDetector._detect`: URL (with cache), then HTML, then meta. -/
def FrameworkDetector_detect (cfg : FwConfig) (cache : DomainCache) (r : DetResponse) :
    Option (Chars × DomainCache) :=
  (FrameworkDetector_detectByUrl cfg cache r.url).map fun fc =>
    if fc.1 ≠ "unknown".data then fc
    else
      let f2 := FrameworkDetector_detectByHtml cfg r.text
      if f2 ≠ "unknown".data then (f2, fc.2)
      else (FrameworkDetector_detectByMeta r, fc.2)

/-- `FrameworkDetector.clear_cache`. -/
def FrameworkDetector_clearCache : DomainCache := []

/-! ### `crawler/pipelines.py` -/

/-- Segments of a POSIX pure path that `pathlib` keeps (empty and `'.'`
segments are dropped). -/
def posixSegs (p : Chars) : List Chars :=
  (splitSlash p).filter fun s => s ≠ [] ∧ s ≠ ['.']

/-- The string of `pathlib.PurePosixPath(p)`: duplicate slashes collapse,
`'.'` segments vanish, a lone double slash at the front is kept. -/
def posixNorm (p : Chars) : Chars :=
  let root : Chars :=
    if p.take 2 = ['/', '/'] ∧ p.take 3 ≠ ['/', '/', '/'] then ['/', '/']
    else if p.take 1 = ['/'] then ['/']
    else []
  let segs := posixSegs p
  if segs = [] then (if root = [] then ['.'] else root)
  else root ++ joinSlash segs

/-- `pathlib`'s `/` operator before normalisation: an absolute right operand
resets the path. -/
def posixJoin (a b : Chars) : Chars :=
  if b.take 1 = ['/'] then b else a ++ '/' :: b

/-- `MarkdownSavePipeline._generate_output_path` (as the string of the
returned `Path`; `urlparse` failure propagates as `none`). -/
def MarkdownSavePipeline_generateOutputPath (outputDir url : Chars) : Option Chars :=
  (urlparseQ url []).map fun pr =>
    let domain := pr.netloc
    let path := pr.path
    if path = [] ∨ path = ['/'] then
      posixNorm (posixJoin (posixJoin outputDir domain) "index.md".data)
    else
      let p1 :=
        if endsWithL path ".html".data then path.take (path.length - 5)
        else if endsWithL path ".htm".data then path.take (path.length - 4)
        else path
      let p2 := if endsWithL p1 ['/'] then p1 ++ "index".data else p1
      let p3 := if p2.take 1 = ['/'] then p2.drop 1 else p2
      posixNorm (posixJoin (posixJoin outputDir domain) (p3 ++ ".md".data))

/-- A YAML value of the front-matter subset the pipeline writes: a plain
string scalar or a block sequence of string scalars. -/
inductive YamlVal where
  | s (v : Chars)
  | list (vs : List Chars)
deriving DecidableEq, Repr

abbrev Metadata := List (Chars × YamlVal)

/-- The fields of a `BlogItem` that `_build_metadata` reads. -/
structure BlogItemData where
  url : Option Chars
  title : Option Chars
  tags : List Chars
  framework : Option Chars
  crawlTime : Option Chars

/-- `MarkdownSavePipeline._build_metadata` (`now` stands for
`datetime.now().strftime(...)`, used when the item has no truthy
`crawl_time`). -/
def MarkdownSavePipeline_buildMetadata (it : BlogItemData) (now : Chars) : Metadata :=
  (match it.url with
   | some u => if u ≠ [] then [("url".data, YamlVal.s u)] else []
   | none => []) ++
  (match it.title with
   | some t => if t ≠ [] then [("title".data, YamlVal.s t)] else []
   | none => []) ++
  (if it.tags ≠ [] then [("tags".data, YamlVal.list it.tags)] else []) ++
  (match it.framework with
   | some f => if f ≠ [] then [("framework".data, YamlVal.s f)] else []
   | none => []) ++
  [("crawl_time".data, YamlVal.s
     (match it.crawlTime with
      | some t => if t ≠ [] then t else now
      | none => now))]

/-- Total order on YAML keys (Python `sorted`, code-point order). -/
def keyLe : Chars → Chars → Bool
  | [], _ => true
  | _ :: _, [] => false
  | a :: as_, b :: bs => if a = b then keyLe as_ bs else decide (a.toNat < b.toNat)

def insertSortedKey (x : Chars × YamlVal) : Metadata → Metadata
  | [] => [x]
  | y :: ys => if keyLe x.1 y.1 then x :: y :: ys else y :: insertSortedKey x ys

/-- Key-sorting performed by `yaml.dump` (`sort_keys=True` by default). -/
def sortByKey (m : Metadata) : Metadata := m.foldr insertSortedKey []

/-- One entry of the dump: `key: value\n`, or `key:\n` followed by
`- item\n` lines for a sequence (`default_flow_style=False`). -/
def yamlDumpEntry : Chars × YamlVal → Chars
  | (k, YamlVal.s v) => k ++ ':' :: ' ' :: v ++ ['\n']
  | (k, YamlVal.list vs) =>
    k ++ ':' :: '\n' :: vs.foldr (fun v acc => '-' :: ' ' :: (v ++ '\n' :: acc)) []

/-- PyYAML `yaml.dump(metadata, default_flow_style=False, allow_unicode=True)`
modelled on the plain-scalar subset the pipeline emits (keys sorted, scalars
that need no quoting). -/
def yamlDump (m : Metadata) : Chars :=
  (sortByKey m).foldr (fun e acc => yamlDumpEntry e ++ acc) []

/-- `MarkdownSavePipeline._build_markdown`. -/
def MarkdownSavePipeline_buildMarkdown (md : Metadata) (content : Chars) : Chars :=
  "---\n".data ++ yamlDump md ++ "---\n\n".data ++ content

/-- Scalars on which the PyYAML model above is exact: plain non-numeric,
non-boolean words made of URL-ish characters, with no whitespace and not
ending in a colon.  (PyYAML would quote or re-type scalars outside this
set.) -/
def plainScalarOk (v : Chars) : Bool :=
  v ≠ [] &&
  (match v.head? with
   | some c => c.isAlpha
   | none => false) &&
  v.all (fun c => c.isAlpha || c.isDigit || c = '/' || c = ':' || c = '.' ||
    c = '-' || c = '_' || c = '+' || c = '~' || c = '@' || c = '=' ||
    c = '&' || c = '%' || c = '?') &&
  ¬ endsWithL v [':'] &&
  decide (v ∉ (["true", "false", "null", "yes", "no", "on", "off",
    "True", "False", "Null", "Yes", "No", "On", "Off",
    "TRUE", "FALSE", "NULL", "YES", "NO", "ON", "OFF"].map String.data))

/-! ### `crawler/middlewares.py` (`CacheMiddleware`) -/

/-- Lines of PyYAML block output: `- item` entries after a `key:` header.
(The leftover-line list is returned with a length bound to justify the
recursion of `yamlLoadLines`.) -/
def yamlParseItems : (l : List Chars) → List Chars × {r : List Chars // r.length ≤ l.length}
  | [] => ([], ⟨[], by simp⟩)
  | ln :: rest =>
    if ln.take 2 = ['-', ' '] then
      let r := yamlParseItems rest
      ((ln.drop 2) :: r.1, ⟨r.2.1, by have := r.2.2; simp; omega⟩)
    else ([], ⟨ln :: rest, by simp⟩)

/-- PyYAML `yaml.safe_load` modelled on the same front-matter subset: a
mapping of `key: value` lines and indentless `- item` block sequences;
anything else fails.  Scalars are kept as verbatim strings (exact for the
`plainScalarOk` subset).  (`fuel` only drives the structural recursion; the
initial call supplies the line count, so the zero case is unreachable.) -/
def yamlLoadLinesGo : (fuel : Nat) → (l : List Chars) → l.length ≤ fuel → Option Metadata
  | _, [], _ => some []
  | fuel + 1, ln :: rest, h =>
    match breakFirst ':' ln with
    | none => none
    | some (k, after) =>
      if after = [] then
        let r := yamlParseItems rest
        (yamlLoadLinesGo fuel r.2.1 (by
          have hb := r.2.2
          simp only [List.length_cons] at h
          omega)).map fun m => (k, YamlVal.list r.1) :: m
      else if after.take 1 = [' '] then
        (yamlLoadLinesGo fuel rest (by
          simp only [List.length_cons] at h
          omega)).map fun m => (k, YamlVal.s (after.drop 1)) :: m
      else none

def yamlLoadLines (l : List Chars) : Option Metadata :=
  yamlLoadLinesGo l.length l (Nat.le_refl _)

def yamlSafeLoad (s : Chars) : Option Metadata :=
  yamlLoadLines (splitOnChar '\n' s)

/-- `CacheMiddleware._parse_yaml_metadata`: requires a `---` start, locates
`\n---\n` from index 4, and YAML-parses the slice in between. -/
def CacheMiddleware_parseYamlMetadata (content : Chars) : Option Metadata :=
  if "---".data <+: content then
    match breakFirstSeq "\n---\n".data (content.drop 4) with
    | none => none
    | some (pre, _) => yamlSafeLoad pre
  else none

structure CacheEntry where
  content : Chars
  metadata : Metadata
  filePath : Chars
deriving Repr

abbrev UrlCache := List (Chars × CacheEntry)

/-- `CacheMiddleware._preload_from_output` over the markdown files found
under the output directory (given as `(path, content)` pairs).  A parse
failure, a missing `url` key, or a non-string `url` value (whose use as a
dict key would raise) skips the file. -/
def CacheMiddleware_preloadFromOutput (files : List (Chars × Chars)) : UrlCache :=
  files.foldl
    (fun cache f =>
      match CacheMiddleware_parseYamlMetadata f.2 with
      | some md =>
        if md ≠ [] then
          match md.lookup "url".data with
          | some (YamlVal.s u) => (u, ⟨f.2, md, f.1⟩) :: cache
          | some (YamlVal.list _) => cache
          | none => cache
        else cache
      | none => cache)
    []

/-- `settings.py` line 154: the preload toggle, default `False`. -/
def CACHE_PRELOAD_FROM_OUTPUT : Bool := false

set_option linter.unusedVariables false in
/-- `CacheMiddleware.__init__`: the constructor preloads unconditionally —
the `cachePreloadFromOutput` argument reproduces the configuration value,
which the constructor (like `from_crawler`, which only reads `CACHE_DIR` and
`OUTPUT_DIR`) never consults. -/
def CacheMiddleware_init (cachePreloadFromOutput : Bool)
    (files : List (Chars × Chars)) : UrlCache :=
  CacheMiddleware_preloadFromOutput files

/-- `CacheMiddleware.process_request`: an exact-URL hit synthesises a
response from the cached body (the text after the closing `\n---\n`) plus
the cached metadata; a miss returns `None`. -/
def CacheMiddleware_processRequest (cache : UrlCache) (url : Chars) :
    Option (Chars × Metadata) :=
  match cache.lookup url with
  | none => none
  | some e =>
    let body :=
      match breakFirstSeq "\n---\n".data (e.content.drop 4) with
      | some (_, post) => post
      | none => e.content
    some (body, e.metadata)

/-! ### `crawler/converters/base.py` and `crawler/utils.py` -/

/-- The selector interface of a fetched page as the converter uses it: each
query either returns its matches or raises (`Except.error`).  `textNodes s`
models `response.css(f"{s}::text")`, `htmlNodes s` models
`response.css(s)`, and the three attribute queries model the fixed `meta`
lookups of `extract_title` / `extract_tags`. -/
structure ConvPage where
  textNodes : Chars → Except Chars (List Chars)
  htmlNodes : Chars → Except Chars (List Chars)
  ogTitle : Except Chars (List Chars)
  keywords : Except Chars (List Chars)
  articleTags : Except Chars (List Chars)

/-- `SelectorHelper.extract_first_text` (the raising part; `.get()` is the
head of the match list). -/
def SelectorHelper_extractFirstTextE (page : ConvPage) :
    List Chars → Except Chars (Option Chars)
  | [] => Except.ok none
  | sel :: rest => do
    let nodes ← page.textNodes sel
    match nodes.head? with
    | some t =>
      if t ≠ [] then
        let ts := pyStrip t
        if ts ≠ [] then Except.ok (some ts)
        else SelectorHelper_extractFirstTextE page rest
      else SelectorHelper_extractFirstTextE page rest
    | none => SelectorHelper_extractFirstTextE page rest

/-- `SelectorHelper.extract_first_html`. -/
def SelectorHelper_extractFirstHtmlE (page : ConvPage) :
    List Chars → Except Chars (Option Chars)
  | [] => Except.ok none
  | sel :: rest => do
    let ns ← page.htmlNodes sel
    match ns.head? with
    | some h =>
      if h ≠ [] then Except.ok (some h)
      else SelectorHelper_extractFirstHtmlE page rest
    | none => SelectorHelper_extractFirstHtmlE page rest

/-- `SelectorHelper.extract_all_texts` before its dedup step. -/
def SelectorHelper_extractAllTextsE (page : ConvPage) :
    List Chars → Except Chars (List Chars)
  | [] => Except.ok []
  | sel :: rest => do
    let ns ← page.textNodes sel
    let more ← SelectorHelper_extractAllTextsE page rest
    Except.ok (ns ++ more)

/-- The raising body of `BaseConverter.extract_title`: selector chain first,
then the `og:title` attribute, else absent. -/
def BaseConverter_extractTitleE (page : ConvPage) (titleSelectors : List Chars) :
    Except Chars (Option Chars) := do
  let t ← SelectorHelper_extractFirstTextE page titleSelectors
  match t with
  | some v => Except.ok (some v)
  | none => do
    let og ← page.ogTitle
    match og.head? with
    | some t2 => if t2 ≠ [] then Except.ok (some (pyStrip t2)) else Except.ok none
    | none => Except.ok none

/-- `BaseConverter.extract_title` (its `try/except` returns `None` on any
exception). -/
def BaseConverter_extractTitle (page : ConvPage) (titleSelectors : List Chars) :
    Option Chars :=
  match BaseConverter_extractTitleE page titleSelectors with
  | Except.ok v => v
  | Except.error _ => none

/-- The raising body of `BaseConverter.extract_tags` (`list(set(...))` is
modelled as first-occurrence dedup; CPython's set order is not
semantically specified). -/
def BaseConverter_extractTagsE (page : ConvPage) (tagsSelectors : List Chars) :
    Except Chars (List Chars) := do
  let texts ← SelectorHelper_extractAllTextsE page tagsSelectors
  let texts := (texts.filterMap fun t =>
    if t ≠ [] ∧ pyStrip t ≠ [] then some (pyStrip t) else none).eraseDups
  let kw ← page.keywords
  let texts := texts ++
    (match kw.head? with
     | some k => if k ≠ [] then (splitOnChar ',' k).map pyStrip else []
     | none => [])
  let ats ← page.articleTags
  let texts := texts ++ ats.map pyStrip
  Except.ok ((texts.filter fun t => t ≠ []).eraseDups)

/-- `BaseConverter.extract_tags` (empty list on any exception). -/
def BaseConverter_extractTags (page : ConvPage) (tagsSelectors : List Chars) :
    List Chars :=
  match BaseConverter_extractTagsE page tagsSelectors with
  | Except.ok v => v
  | Except.error _ => []

/-- `BaseConverter.convert`: `conv` abstracts the
BeautifulSoup-parse / strip-tags / markdownify composite, which may raise;
any failure yields the empty string. -/
def BaseConverter_convert (conv : Chars → Except Chars Chars) (html : Chars) : Chars :=
  match conv html with
  | Except.ok r => r
  | Except.error _ => []

/-- The raising body of `BaseConverter.extract_content`. -/
def BaseConverter_extractContentE (conv : Chars → Except Chars Chars)
    (page : ConvPage) (contentSelectors : List Chars) : Except Chars Chars := do
  let h ← SelectorHelper_extractFirstHtmlE page contentSelectors
  match h with
  | some html => Except.ok (BaseConverter_convert conv html)
  | none => Except.ok []

/-- `BaseConverter.extract_content` (empty string on any exception). -/
def BaseConverter_extractContent (conv : Chars → Except Chars Chars)
    (page : ConvPage) (contentSelectors : List Chars) : Chars :=
  match BaseConverter_extractContentE conv page contentSelectors with
  | Except.ok v => v
  | Except.error _ => []

structure ProcessResult where
  title : Option Chars
  tags : List Chars
  content : Chars
deriving DecidableEq, Repr

/-- `BaseConverter.process`: the three fields are extracted independently;
each extractor contains its own failures, so the outer `try` never fires. -/
def BaseConverter_process (conv : Chars → Except Chars Chars) (page : ConvPage)
    (titleSelectors tagsSelectors contentSelectors : List Chars) : ProcessResult :=
  ⟨BaseConverter_extractTitle page titleSelectors,
   BaseConverter_extractTags page tagsSelectors,
   BaseConverter_extractContent conv page contentSelectors⟩

/-! ### `crawler/utils.py` `UrlNormalizer` (the HTML attribute pass) -/

/-- `UrlNormalizer.convert_relative_urls`: the soup is modelled as the list
of the URL-bearing attribute slots the function visits (`img@src`, `a@href`,
`link@href`, `script@src`, `source@src`, `video@src`/`@poster`, `audio@src`,
`iframe@src`, `embed@src`, `object@data`), each `none` when absent.  A falsy
(empty) base URL leaves the soup untouched; falsy attribute values are
skipped; present values are replaced by `urljoin(base, value)` in place, and
a `urljoin` exception propagates. -/
def UrlNormalizer_convertRelativeUrls (attrs : List (Option Chars)) (base : Chars) :
    Option (List (Option Chars)) :=
  if base = [] then some attrs
  else
    attrs.mapM fun a =>
      match a with
      | none => some none
      | some v => if v = [] then some (some v) else (urljoinQ base v).map some

/-- A base URL that parses and carries an authority (netloc) — true of every
page URL the crawl engine hands to the spider. -/
def hasAuthority (base : Chars) : Bool :=
  match urlparseQ base [] with
  | some p => p.netloc ≠ []
  | none => false

/-! ### `BlogSpider._convert_markdown_urls` (the Markdown pass) -/

/-- The skip prefixes of `replace_image_url`. -/
def imageSkip : List Chars := ["http://".data, "https://".data, "data:".data, "#".data]

/-- The skip prefixes of `replace_link_url`. -/
def linkSkip : List Chars :=
  ["http://".data, "https://".data, "mailto:".data, "tel:".data, "#".data]

/-- The skip prefixes of `replace_ref_url`. -/
def refSkip : List Chars := ["http://".data, "https://".data, "#".data]

/-- Python `url.startswith(tuple)`. -/
def startsWithOne (prefs : List Chars) (u : Chars) : Bool :=
  prefs.any fun p => startsWithL u p

/-- The text matched by `!\[([^\]]*)\]\(([^)]+)\)` with groups `alt`, `url`
(also the shape of the rebuilt replacement). -/
def imageGroup0 (alt url : Chars) : Chars :=
  '!' :: '[' :: (alt ++ ']' :: '(' :: (url ++ [')']))

/-- The text matched by `\[([^\]]+)\]\(([^)]+)\)`. -/
def linkGroup0 (text url : Chars) : Chars :=
  '[' :: (text ++ ']' :: '(' :: (url ++ [')']))

/-- The text matched by `\[([^\]]+)\]:\s*([^\s]+)` with whitespace run `ws`. -/
def refGroup0 (ref ws url : Chars) : Chars :=
  '[' :: (ref ++ ']' :: ':' :: (ws ++ url))

/-- `replace_image_url` of `_convert_markdown_urls`, applied to a match of
`!\[([^\]]*)\]\(([^)]+)\)` — the matched text is exactly
`![alt](url)`.  A raising `urljoin` propagates as `none`. -/
def replace_image_url (base alt url : Chars) : Option Chars :=
  if startsWithOne imageSkip url then some (imageGroup0 alt url)
  else (urljoinQ base url).map fun a => imageGroup0 alt a

/-- `replace_link_url`, applied to a match of `\[([^\]]+)\]\(([^)]+)\)`. -/
def replace_link_url (base text url : Chars) : Option Chars :=
  if startsWithOne linkSkip url then some (linkGroup0 text url)
  else (urljoinQ base url).map fun a => linkGroup0 text a

/-- `replace_ref_url`, applied to a match of `\[([^\]]+)\]:\s*([^\s]+)`
(`ws` is the matched whitespace run; the replacement rebuilds with a single
space). -/
def replace_ref_url (base ref ws url : Chars) : Option Chars :=
  if startsWithOne refSkip url then some (refGroup0 ref ws url)
  else (urljoinQ base url).map fun a => refGroup0 ref [' '] a

/-- The URL transformation the image rewrite applies to a matched URL. -/
def imageUrlRewrite (base url : Chars) : Option Chars :=
  if startsWithOne imageSkip url then some url else urljoinQ base url

/-- The URL transformation the inline-link rewrite applies. -/
def linkUrlRewrite (base url : Chars) : Option Chars :=
  if startsWithOne linkSkip url then some url else urljoinQ base url

/-- The URL transformation the reference-definition rewrite applies. -/
def refUrlRewrite (base url : Chars) : Option Chars :=
  if startsWithOne refSkip url then some url else urljoinQ base url

/-- Deterministic matcher for `!\[([^\]]*)\]\(([^)]+)\)` at the head of the
input (the pattern backtracks into nothing else: each character class is
maximal and followed by a mandatory literal).  Returns the two groups and
the remainder, with a length bound for the scanning recursion. -/
def matchImageAt : (l : Chars) → Option ((Chars × Chars) × {r : Chars // r.length < l.length})
  | '!' :: '[' :: t =>
    let alt := t.takeWhile (fun c => c ≠ ']')
    match h1 : t.dropWhile (fun c => c ≠ ']') with
    | ']' :: '(' :: t2 =>
      let url := t2.takeWhile (fun c => c ≠ ')')
      match h2 : t2.dropWhile (fun c => c ≠ ')') with
      | ')' :: t3 =>
        if url = [] then none
        else
          some ((alt, url), ⟨t3, by
            have b1 : (t.dropWhile (fun c => c ≠ ']')).length ≤ t.length :=
              (List.dropWhile_sublist _).length_le
            have b2 : (t2.dropWhile (fun c => c ≠ ')')).length ≤ t2.length :=
              (List.dropWhile_sublist _).length_le
            rw [h1] at b1
            rw [h2] at b2
            simp only [List.length_cons] at b1 b2 ⊢
            omega⟩)
      | _ => none
    | _ => none
  | _ => none

/-- Deterministic matcher for `\[([^\]]+)\]\(([^)]+)\)` at the head. -/
def matchLinkAt : (l : Chars) → Option ((Chars × Chars) × {r : Chars // r.length < l.length})
  | '[' :: t =>
    let txt := t.takeWhile (fun c => c ≠ ']')
    if txt = [] then none
    else
      match h1 : t.dropWhile (fun c => c ≠ ']') with
      | ']' :: '(' :: t2 =>
        let url := t2.takeWhile (fun c => c ≠ ')')
        match h2 : t2.dropWhile (fun c => c ≠ ')') with
        | ')' :: t3 =>
          if url = [] then none
          else
            some ((txt, url), ⟨t3, by
              have b1 : (t.dropWhile (fun c => c ≠ ']')).length ≤ t.length :=
                (List.dropWhile_sublist _).length_le
              have b2 : (t2.dropWhile (fun c => c ≠ ')')).length ≤ t2.length :=
                (List.dropWhile_sublist _).length_le
              rw [h1] at b1
              rw [h2] at b2
              simp only [List.length_cons] at b1 b2 ⊢
              omega⟩)
        | _ => none
      | _ => none
  | _ => none

/-- Deterministic matcher for `\[([^\]]+)\]:\s*([^\s]+)` at the head:
groups `(ref, ws, url)` where `ws` is the greedy whitespace run.  (`\s` is
modelled as ASCII whitespace.) -/
def matchRefAt : (l : Chars) → Option ((Chars × Chars × Chars) × {r : Chars // r.length < l.length})
  | '[' :: t =>
    let ref := t.takeWhile (fun c => c ≠ ']')
    if ref = [] then none
    else
      match h1 : t.dropWhile (fun c => c ≠ ']') with
      | ']' :: ':' :: t2 =>
        let ws := t2.takeWhile isPySpace
        let afterWs := t2.dropWhile isPySpace
        let url := afterWs.takeWhile (fun c => ¬ isPySpace c)
        if url = [] then none
        else
          some ((ref, ws, url), ⟨afterWs.drop url.length, by
            have b1 : (t.dropWhile (fun c => c ≠ ']')).length ≤ t.length :=
              (List.dropWhile_sublist _).length_le
            have b2 : afterWs.length ≤ t2.length :=
              (List.dropWhile_sublist _).length_le
            rw [h1] at b1
            simp only [List.length_cons, List.length_drop] at b1 b2 ⊢
            omega⟩)
      | _ => none
  | _ => none

/-- `re.sub` for the image pattern: scan left to right, replace
non-overlapping matches, resume after each match; a raising replacement
aborts (`none`). -/
def subImageGo (base : Chars) : (fuel : Nat) → (l : Chars) → l.length ≤ fuel → Option Chars
  | _, [], _ => some []
  | fuel + 1, c :: cs, h =>
    match matchImageAt (c :: cs) with
    | some ((alt, url), rest) =>
      match replace_image_url base alt url, subImageGo base fuel rest.1 (by
          have hb := rest.2
          simp only [List.length_cons] at h hb
          omega) with
      | some r, some tail => some (r ++ tail)
      | _, _ => none
    | none =>
      match subImageGo base fuel cs (by
          simp only [List.length_cons] at h
          omega) with
      | some tail => some (c :: tail)
      | none => none

def subImage (base : Chars) (l : Chars) : Option Chars :=
  subImageGo base l.length l (Nat.le_refl _)

/-- `re.sub` for the inline-link pattern. -/
def subLinkGo (base : Chars) : (fuel : Nat) → (l : Chars) → l.length ≤ fuel → Option Chars
  | _, [], _ => some []
  | fuel + 1, c :: cs, h =>
    match matchLinkAt (c :: cs) with
    | some ((txt, url), rest) =>
      match replace_link_url base txt url, subLinkGo base fuel rest.1 (by
          have hb := rest.2
          simp only [List.length_cons] at h hb
          omega) with
      | some r, some tail => some (r ++ tail)
      | _, _ => none
    | none =>
      match subLinkGo base fuel cs (by
          simp only [List.length_cons] at h
          omega) with
      | some tail => some (c :: tail)
      | none => none

def subLink (base : Chars) (l : Chars) : Option Chars :=
  subLinkGo base l.length l (Nat.le_refl _)

/-- `re.sub` for the reference-definition pattern. -/
def subRefGo (base : Chars) : (fuel : Nat) → (l : Chars) → l.length ≤ fuel → Option Chars
  | _, [], _ => some []
  | fuel + 1, c :: cs, h =>
    match matchRefAt (c :: cs) with
    | some ((ref, ws, url), rest) =>
      match replace_ref_url base ref ws url, subRefGo base fuel rest.1 (by
          have hb := rest.2
          simp only [List.length_cons] at h hb
          omega) with
      | some r, some tail => some (r ++ tail)
      | _, _ => none
    | none =>
      match subRefGo base fuel cs (by
          simp only [List.length_cons] at h
          omega) with
      | some tail => some (c :: tail)
      | none => none

def subRef (base : Chars) (l : Chars) : Option Chars :=
  subRefGo base l.length l (Nat.le_refl _)

/-- `BlogSpider._convert_markdown_urls`: empty content is returned as is,
otherwise the three rewrites run in order (image, inline link, reference
definition); an exception anywhere propagates as `none`. -/
def BlogSpider_convertMarkdownUrls (content baseUrl : Chars) : Option Chars :=
  if content = [] then some content
  else do
    let c1 ← subImage baseUrl content
    let c2 ← subLink baseUrl c1
    subRef baseUrl c2

/-! ### Statement-level helpers -/

/-- The relative-path transformation inside
`MarkdownSavePipeline._generate_output_path`: strip a `.html`/`.htm`
extension, append `index` after a trailing slash, drop one leading slash;
the root path maps to `index`. -/
def outputPathKey (path : Chars) : Chars :=
  if path = [] ∨ path = ['/'] then "index".data
  else
    let p1 :=
      if endsWithL path ".html".data then path.take (path.length - 5)
      else if endsWithL path ".htm".data then path.take (path.length - 4)
      else path
    let p2 := if endsWithL p1 ['/'] then p1 ++ "index".data else p1
    if p2.take 1 = ['/'] then p2.drop 1 else p2

/-- All values stored in the domain cache name configured frameworks.  (The
cache is only ever written by `_detect_by_url` with a name drawn from
`get_supported_frameworks`.) -/
def cacheValuesOk (cfg : FwConfig) (cache : DomainCache) : Prop :=
  ∀ k v, cache.lookup k = some v → v ∈ supportedFrameworks cfg

/-- No domain is cached as `unknown`. -/
def cacheNoUnknown (cache : DomainCache) : Prop :=
  ∀ k v, cache.lookup k = some v → v ≠ "unknown".data

/-- The individual output lines of one dumped metadata entry. -/
def entryLines : Chars × YamlVal → List Chars
  | (k, YamlVal.s v) => [k ++ ':' :: ' ' :: v]
  | (k, YamlVal.list vs) => (k ++ [':']) :: vs.map (fun v => '-' :: ' ' :: v)

/-- All output lines of a dumped metadata mapping, in order. -/
def linesOf : Metadata → List Chars
  | [] => []
  | e :: t => entryLines e ++ linesOf t

/-- Join lines with a newline after every line (the shape of the
`yaml.dump` output). -/
def joinLines : List Chars → Chars
  | [] => []
  | l :: ls => l ++ '\n' :: joinLines ls

/-- Join lines with newlines between them (the front-matter block as it is
sliced back out by `_parse_yaml_metadata`). -/
def interLines : List Chars → Chars
  | [] => []
  | [l] => l
  | l :: ls => l ++ '\n' :: interLines ls

/-! ## Theorems -/

/-! ### Detector lemmas -/

theorem detectByUrlScan_eq_some {cfg : FwConfig} {d p : Chars} :
    ∀ {l : List Chars} {fw : Chars}, detectByUrlScan cfg d p l = some fw →
      fw ∈ l ∧ ((getFrameworkConfig cfg fw).urlPatterns).any
        (fun q => isSubstrOf q d || isSubstrOf q p) = true := by
  intro l
  induction l with
  | nil => intro fw h; simp [detectByUrlScan] at h
  | cons hd tl ih =>
    intro fw h
    rw [detectByUrlScan] at h
    by_cases hc : ((getFrameworkConfig cfg hd).urlPatterns).any
        (fun q => isSubstrOf q d || isSubstrOf q p) = true
    · simp only [hc, if_true, Option.some.injEq] at h
      subst h
      exact ⟨List.mem_cons_self _ _, hc⟩
    · simp only [hc, if_false] at h
      rcases ih h with ⟨hm, hp⟩
      exact ⟨List.mem_cons_of_mem _ hm, hp⟩

theorem detectByHtmlScan_mem {cfg : FwConfig} {html : Chars} :
    ∀ {l : List Chars} {fw : Chars}, detectByHtmlScan cfg html l = some fw → fw ∈ l := by
  intro l
  induction l with
  | nil => intro fw h; simp [detectByHtmlScan] at h
  | cons hd tl ih =>
    intro fw h
    rw [detectByHtmlScan] at h
    split at h
    · cases h; exact List.mem_cons_self _ _
    · exact List.mem_cons_of_mem _ (ih h)

theorem detectByHtml_cases (cfg : FwConfig) (text : Chars) :
    FrameworkDetector_detectByHtml cfg text ∈ supportedFrameworks cfg ∨
      FrameworkDetector_detectByHtml cfg text = "unknown".data := by
  rw [FrameworkDetector_detectByHtml]
  split
  · rename_i fw h
    exact Or.inl (detectByHtmlScan_mem h)
  · exact Or.inr rfl

theorem detectByMeta_cases (r : DetResponse) :
    FrameworkDetector_detectByMeta r = "mkdocs".data ∨
      FrameworkDetector_detectByMeta r = "sphinx".data ∨
      FrameworkDetector_detectByMeta r = "docsify".data ∨
      FrameworkDetector_detectByMeta r = "unknown".data := by
  rw [FrameworkDetector_detectByMeta]
  rcases r.metaGenerator with _ | g <;> rcases r.metaTheme with _ | t <;>
    dsimp only <;> (try split_ifs) <;> simp

/-! ### Claim C4 — cache precedence -/

/-- Claim C4: once the domain cache maps a page's domain to a framework
`f ≠ "unknown"`, `classify` returns `f` for every response on that domain —
whatever its path, body or meta tags — and leaves the cache unchanged;
`clear_cache` resets the domain cache to empty. -/
theorem c4_cache_precedence (cfg : FwConfig) (cache : DomainCache) (r : DetResponse)
    (pr : ParseParts) (f : Chars)
    (hparse : urlparseQ r.url [] = some pr)
    (hhit : cache.lookup (lowerChars pr.netloc) = some f)
    (hf : f ≠ "unknown".data) :
    FrameworkDetector_detect cfg cache r = some (f, cache) ∧
      FrameworkDetector_clearCache = ([] : DomainCache) := by
  refine ⟨?_, rfl⟩
  rw [FrameworkDetector_detect, FrameworkDetector_detectByUrl, hparse]
  simp only [Option.map_some']
  rw [hhit]
  dsimp only
  rw [if_pos]
  exact hf

/-- Witness for C4: a domain cached as `readthedocs` wins over a page whose
body and `generator` meta tag would indicate other frameworks. -/
theorem c4_cache_precedence_witness :
    FrameworkDetector_detect
      [("readthedocs".data, ⟨["readthedocs".data], ["wy-nav".data], []⟩),
       ("unknown".data, ⟨[], [], []⟩)]
      [("docs.example.io".data, "readthedocs".data)]
      ⟨"https://docs.example.io/en/latest/guide.html".data,
        "<div class=md-sidebar>MkDocs</div>".data, some "Sphinx 4.0".data, none⟩ =
      some ("readthedocs".data, [("docs.example.io".data, "readthedocs".data)]) ∧
      FrameworkDetector_clearCache = ([] : DomainCache) :=
  c4_cache_precedence _ _ _
    ⟨"https".data, "docs.example.io".data, "/en/latest/guide.html".data, [], [], []⟩
    "readthedocs".data (by decide) (by decide) (by decide)

/-! ### Claim C10 — the domain cache never stores `unknown` -/

/-- Claim C10: provided the `unknown` configuration entry carries no URL
patterns (the configuration file is not part of the sources; the spec's
`unknown` entry is the terminal fallback that patterns never select), a
detection step never writes `unknown` into the domain cache: an entry is
written only when some framework's URL pattern matches, so a cache with no
`unknown` values keeps that invariant. -/
theorem c10_cache_never_unknown (cfg : FwConfig) (cache : DomainCache)
    (r : DetResponse) (out : Chars × DomainCache)
    (hu : (getFrameworkConfig cfg "unknown".data).urlPatterns = [])
    (hc : cacheNoUnknown cache)
    (hdet : FrameworkDetector_detect cfg cache r = some out) :
    cacheNoUnknown out.2 := by
  rw [FrameworkDetector_detect] at hdet
  rcases Option.map_eq_some'.mp hdet with ⟨fc, hurl, hout⟩
  have hfc : cacheNoUnknown fc.2 := by
    rw [FrameworkDetector_detectByUrl] at hurl
    rcases hp : urlparseQ r.url [] with _ | pr
    · rw [hp] at hurl
      simp at hurl
    · rw [hp] at hurl
      simp only [Option.map_some', Option.some.injEq] at hurl
      rcases hlk : (cache.lookup (lowerChars pr.netloc)) with _ | f
      · rw [hlk] at hurl
        rcases hscan : detectByUrlScan cfg (lowerChars pr.netloc) (lowerChars pr.path)
            (supportedFrameworks cfg) with _ | fw
        · rw [hscan] at hurl
          rw [← hurl]
          exact hc
        · rw [hscan] at hurl
          rw [← hurl]
          intro k v hkv
          rw [List.lookup] at hkv
          split at hkv
          · cases hkv
            intro heq
            subst heq
            rcases detectByUrlScan_eq_some hscan with ⟨_, hany⟩
            rw [hu] at hany
            simp [List.any] at hany
          · exact hc _ _ hkv
      · rw [hlk] at hurl
        rw [← hurl]
        exact hc
  rw [← hout]
  dsimp only
  split
  · exact hfc
  · split <;> exact hfc

/-- Witness for C10: a fresh detection on a ReadTheDocs-patterned domain
leaves a cache whose single entry is not `unknown`. -/
theorem c10_cache_never_unknown_witness :
    cacheNoUnknown [("docs.readthedocs.io".data, "readthedocs".data)] := by
  have h := c10_cache_never_unknown
    [("readthedocs".data, ⟨["readthedocs".data], [], []⟩), ("unknown".data, ⟨[], [], []⟩)]
    [] ⟨"https://docs.readthedocs.io/x".data, [], none, none⟩
    ("readthedocs".data, [("docs.readthedocs.io".data, "readthedocs".data)])
    (by decide) (by intro k v hkv; simp [List.lookup] at hkv) (by decide)
  exact h

/-! ### Claim C3 — classifier totality -/

/-- Counterexample to C3 as stated: with a configuration store containing
only the `unknown` entry, a page whose `generator` meta tag mentions MkDocs
classifies as `"mkdocs"` — a name absent from the store (the meta stage uses
hard-coded names, not the store). -/
theorem c3_counterexample :
    FrameworkDetector_detect [("unknown".data, ⟨[], [], []⟩)] []
        ⟨"https://example.com/x".data, [], some "MkDocs 1.5".data, none⟩ =
      some ("mkdocs".data, []) ∧
      "mkdocs".data ∉ supportedFrameworks [("unknown".data, FwEntry.mk [] [] [])] ∧
      "mkdocs".data ≠ "unknown".data := by
  refine ⟨by decide, by decide, by decide⟩

/-- Amended C3: classification is total (modelled failures are only
`urlparse` raising on a malformed page URL), and — provided every cached
value names a configured framework, as every cache write does — the
returned name lies in the configuration store or is one of the four
hard-coded outcomes `unknown`, `mkdocs`, `sphinx`, `docsify`; the last
three can be absent from the store. -/
theorem c3_classifier_names (cfg : FwConfig) (cache : DomainCache) (r : DetResponse)
    (out : Chars × DomainCache)
    (hcache : cacheValuesOk cfg cache)
    (hdet : FrameworkDetector_detect cfg cache r = some out) :
    out.1 ∈ supportedFrameworks cfg ∨
      out.1 = "unknown".data ∨ out.1 = "mkdocs".data ∨
      out.1 = "sphinx".data ∨ out.1 = "docsify".data := by
  rw [FrameworkDetector_detect] at hdet
  rcases Option.map_eq_some'.mp hdet with ⟨fc, hurl, hout⟩
  have hfc : fc.1 ∈ supportedFrameworks cfg ∨ fc.1 = "unknown".data := by
    rw [FrameworkDetector_detectByUrl] at hurl
    rcases hp : urlparseQ r.url [] with _ | pr
    · rw [hp] at hurl
      simp at hurl
    · rw [hp] at hurl
      simp only [Option.map_some', Option.some.injEq] at hurl
      rcases hlk : (cache.lookup (lowerChars pr.netloc)) with _ | f
      · rw [hlk] at hurl
        rcases hscan : detectByUrlScan cfg (lowerChars pr.netloc) (lowerChars pr.path)
            (supportedFrameworks cfg) with _ | fw
        · rw [hscan] at hurl
          rw [← hurl]
          exact Or.inr rfl
        · rw [hscan] at hurl
          rw [← hurl]
          exact Or.inl (detectByUrlScan_eq_some hscan).1
      · rw [hlk] at hurl
        rw [← hurl]
        exact Or.inl (hcache _ _ hlk)
  rw [← hout]
  dsimp only
  split
  · rcases hfc with h | h
    · exact Or.inl h
    · rename_i hne
      exact absurd h hne
  · split
    · rename_i f2 hne
      rcases detectByHtml_cases cfg r.text with h | h
      · exact Or.inl h
      · exact absurd h hne
    · rcases detectByMeta_cases r with h | h | h | h
      · exact Or.inr (Or.inr (Or.inl h))
      · exact Or.inr (Or.inr (Or.inr (Or.inl h)))
      · exact Or.inr (Or.inr (Or.inr (Or.inr h)))
      · exact Or.inr (Or.inl h)

/-- Witness for the amended C3 at a concrete page. -/
theorem c3_classifier_names_witness :
    ("mkdocs".data : Chars) ∈
        supportedFrameworks [("mkdocs".data, FwEntry.mk [] [] []),
          ("unknown".data, FwEntry.mk [] [] [])] ∨
      ("mkdocs".data : Chars) = "unknown".data ∨ ("mkdocs".data : Chars) = "mkdocs".data ∨
      ("mkdocs".data : Chars) = "sphinx".data ∨ ("mkdocs".data : Chars) = "docsify".data := by
  have h := c3_classifier_names
    [("mkdocs".data, ⟨[], [], []⟩), ("unknown".data, ⟨[], [], []⟩)] []
    ⟨"https://example.com/x".data, [], some "MkDocs 1.5".data, none⟩
    ("mkdocs".data, [])
    (by intro k v hkv; simp [List.lookup] at hkv) (by decide)
  exact h

/-! ### Claim C1 — the preload toggle is dead -/

/-- Claim C1 evaluated at its failing input: `CACHE_PRELOAD_FROM_OUTPUT` is
`False`, yet a middleware constructed under that setting answers a request
from the cache, because `CacheMiddleware.__init__` preloads without ever
reading the toggle.  (The claim says a disabled toggle makes lookup report
absent for every URL.) -/
theorem c1_preload_ignores_toggle :
    CACHE_PRELOAD_FROM_OUTPUT = false ∧
    CacheMiddleware_processRequest
      (CacheMiddleware_init CACHE_PRELOAD_FROM_OUTPUT
        [("output/x.io/a.md".data, "---\nurl: https://x.io/a\n---\n\n# Body".data)])
      "https://x.io/a".data =
      some ("\n# Body".data, [("url".data, YamlVal.s "https://x.io/a".data)]) := by
  exact ⟨rfl, by decide⟩

/-! ### Split / join lemmas -/

theorem splitOnChar_ne_nil (ch : Char) (l : Chars) : splitOnChar ch l ≠ [] := by
  cases l with
  | nil => simp [splitOnChar]
  | cons c cs =>
    rw [splitOnChar]
    split
    · simp
    · split <;> simp

theorem mem_splitOnChar_not_mem {ch : Char} :
    ∀ {l : Chars} {s : Chars}, s ∈ splitOnChar ch l → ch ∉ s := by
  intro l
  induction l with
  | nil =>
    intro s hs
    simp [splitOnChar] at hs
    simp [hs]
  | cons c cs ih =>
    intro s hs
    rw [splitOnChar] at hs
    by_cases hc : c = ch
    · simp only [hc, if_true] at hs
      rcases List.mem_cons.mp hs with h | h
      · simp [h]
      · exact ih h
    · simp only [hc, if_false] at hs
      rcases hsp : splitOnChar ch cs with _ | ⟨h0, t0⟩
      · exact absurd hsp (splitOnChar_ne_nil ch cs)
      · rw [hsp] at hs
        rcases List.mem_cons.mp hs with h | h
        · subst h
          intro hmem
          rcases List.mem_cons.mp hmem with h | h
          · exact hc h.symm
          · exact ih (hsp ▸ List.mem_cons_self h0 t0) h
        · exact ih (hsp ▸ List.mem_cons_of_mem h0 h)

theorem splitOnChar_append_cons (ch : Char) :
    ∀ (a b : Chars), splitOnChar ch (a ++ ch :: b) = splitOnChar ch a ++ splitOnChar ch b := by
  intro a
  induction a with
  | nil =>
    intro b
    simp [splitOnChar]
  | cons c cs ih =>
    intro b
    by_cases hc : c = ch
    · subst hc
      simp only [List.cons_append]
      rw [splitOnChar, if_pos rfl, splitOnChar, if_pos rfl, ih]
      simp
    · simp only [List.cons_append]
      rw [splitOnChar, if_neg hc, splitOnChar, if_neg hc, ih]
      rcases hsp : splitOnChar ch cs with _ | ⟨h0, t0⟩
      · exact absurd hsp (splitOnChar_ne_nil ch cs)
      · simp

theorem append_cons_inj {ch : Char} :
    ∀ {x1 x2 r1 r2 : Chars}, ch ∉ x1 → ch ∉ x2 →
      x1 ++ ch :: r1 = x2 ++ ch :: r2 → x1 = x2 ∧ r1 = r2 := by
  intro x1
  induction x1 with
  | nil =>
    intro x2 r1 r2 _ h2 heq
    cases x2 with
    | nil => simpa using heq
    | cons c cs =>
      simp only [List.nil_append, List.cons_append, List.cons.injEq] at heq
      exact absurd (heq.1 ▸ List.mem_cons_self c cs) h2
  | cons c cs ih =>
    intro x2 r1 r2 h1 h2 heq
    cases x2 with
    | nil =>
      simp only [List.nil_append, List.cons_append, List.cons.injEq] at heq
      exact absurd (heq.1.symm ▸ List.mem_cons_self c cs) h1
    | cons d ds =>
      simp only [List.cons_append, List.cons.injEq] at heq
      have h1' : ch ∉ cs := fun h => h1 (List.mem_cons_of_mem c h)
      have h2' : ch ∉ ds := fun h => h2 (List.mem_cons_of_mem d h)
      rcases ih h1' h2' heq.2 with ⟨ha, hb⟩
      exact ⟨by rw [heq.1, ha], hb⟩

theorem joinSlash_inj :
    ∀ {L1 L2 : List Chars},
      (∀ s ∈ L1, s ≠ [] ∧ '/' ∉ s) → (∀ s ∈ L2, s ≠ [] ∧ '/' ∉ s) →
      joinSlash L1 = joinSlash L2 → L1 = L2 := by
  intro L1
  induction L1 with
  | nil =>
    intro L2 _ h2 heq
    cases L2 with
    | nil => rfl
    | cons x xs =>
      cases xs with
      | nil =>
        rw [joinSlash, joinSlash] at heq
        exact absurd heq.symm (h2 x (List.mem_cons_self _ _)).1
      | cons y ys =>
        rw [joinSlash, joinSlash] at heq
        have := (h2 x (List.mem_cons_self _ _)).1
        exact absurd heq.symm (by simp [this])
  | cons x xs ih =>
    intro L2 h1 h2 heq
    cases L2 with
    | nil =>
      cases xs with
      | nil =>
        rw [joinSlash, joinSlash] at heq
        exact absurd heq (h1 x (List.mem_cons_self _ _)).1
      | cons y ys =>
        rw [joinSlash, joinSlash] at heq
        have := (h1 x (List.mem_cons_self _ _)).1
        exact absurd heq (by simp [this])
    | cons z zs =>
      cases xs with
      | nil =>
        cases zs with
        | nil =>
          rw [joinSlash, joinSlash] at heq
          rw [heq]
        | cons w ws =>
          rw [joinSlash, joinSlash] at heq
          have hx : '/' ∉ x := (h1 x (List.mem_cons_self _ _)).2
          rw [heq] at hx
          simp at hx
      | cons y ys =>
        cases zs with
        | nil =>
          rw [joinSlash, joinSlash] at heq
          have hz : '/' ∉ z := (h2 z (List.mem_cons_self _ _)).2
          rw [← heq] at hz
          simp at hz
        | cons w ws =>
          rw [joinSlash, joinSlash] at heq
          have hx : '/' ∉ x := (h1 x (List.mem_cons_self _ _)).2
          have hz : '/' ∉ z := (h2 z (List.mem_cons_self _ _)).2
          rcases append_cons_inj hx hz heq with ⟨hhead, htail⟩
          have hrest := ih (fun s hs => h1 s (List.mem_cons_of_mem x hs))
            (fun s hs => h2 s (List.mem_cons_of_mem z hs)) htail
          rw [hhead, hrest]

theorem posixSegs_append_cons (a b : Chars) :
    posixSegs (a ++ '/' :: b) = posixSegs a ++ posixSegs b := by
  simp only [posixSegs, splitSlash, splitOnChar_append_cons, List.filter_append]

theorem mem_posixSegs_clean {p : Chars} {s : Chars} (h : s ∈ posixSegs p) :
    s ≠ [] ∧ '/' ∉ s := by
  rw [posixSegs] at h
  rcases List.mem_filter.mp h with ⟨hmem, hpred⟩
  refine ⟨?_, mem_splitOnChar_not_mem hmem⟩
  intro hnil
  subst hnil
  simp at hpred

/-! ### URL-part cleanliness -/

theorem splitNetloc_clean (rest : Chars) : ∀ c ∈ (splitNetloc rest).1, notDelim c = true := by
  rw [splitNetloc]
  split
  · intro c hc
    exact List.mem_takeWhile_imp hc
  · intro c hc
    simp at hc

theorem urlsplitQ_eq_some {u ds : Chars} {sp : SplitParts} (h : urlsplitQ u ds = some sp) :
    sp = urlsplitCore (removeUnsafe (lstripC0 u)) (removeUnsafe (stripC0 ds)) ∧
      bracketBad sp.netloc = false ∧ bracketedHostBad sp.netloc = false := by
  rw [urlsplitQ] at h
  split at h
  · exact absurd h (by simp)
  · rename_i hcond
    rw [Option.some.injEq] at h
    subst h
    push_neg at hcond
    simp only [Bool.not_eq_true] at hcond
    exact ⟨rfl, hcond.1, hcond.2⟩

theorem urlsplitQ_netloc_clean {u ds : Chars} {sp : SplitParts}
    (h : urlsplitQ u ds = some sp) : ∀ c ∈ sp.netloc, notDelim c = true := by
  have he := (urlsplitQ_eq_some h).1
  have : sp.netloc = (splitNetloc (schemeSplit (removeUnsafe (lstripC0 u))).2).1 := by
    rw [he]
    rfl
  rw [this]
  exact splitNetloc_clean _

theorem urlparseCore_netloc (sp : SplitParts) : (urlparseCore sp).netloc = sp.netloc := by
  rw [urlparseCore]
  split <;> rfl

theorem urlparseQ_netloc_clean {u ds : Chars} {pr : ParseParts}
    (h : urlparseQ u ds = some pr) : ∀ c ∈ pr.netloc, notDelim c = true := by
  rw [urlparseQ] at h
  rcases hsp : urlsplitQ u ds with _ | sp
  · rw [hsp] at h
    simp at h
  · rw [hsp] at h
    simp only [Option.map_some', Option.some.injEq] at h
    rw [← h, urlparseCore_netloc]
    exact urlsplitQ_netloc_clean hsp

/-! ### Claim C2 — output-path derivation -/

/-- Counterexample to C2 as stated: `/a/b.html` and `/a/b.htm` are distinct
URL paths, yet both derive `output/example.com/a/b.md`. -/
theorem c2_counterexample :
    (urlparseQ "https://example.com/a/b.html".data []).map ParseParts.path ≠
      (urlparseQ "https://example.com/a/b.htm".data []).map ParseParts.path ∧
    MarkdownSavePipeline_generateOutputPath "output".data
        "https://example.com/a/b.html".data =
      MarkdownSavePipeline_generateOutputPath "output".data
        "https://example.com/a/b.htm".data := by
  refine ⟨by decide, by decide⟩

/-- The path derivation factors through the host and the normalised path
key. -/
theorem generateOutputPath_factor (out u : Chars) (pr : ParseParts)
    (h : urlparseQ u [] = some pr) :
    MarkdownSavePipeline_generateOutputPath out u =
      some (posixNorm (posixJoin (posixJoin out pr.netloc)
        (outputPathKey pr.path ++ ".md".data))) := by
  rw [MarkdownSavePipeline_generateOutputPath, h, Option.map_some']
  dsimp only
  rw [outputPathKey]
  by_cases hp : pr.path = [] ∨ pr.path = ['/']
  · rw [if_pos hp, if_pos hp]
    rfl
  · rw [if_neg hp, if_neg hp]

/-- Amended C2: the derivation is injective on `(host, normalised path)`:
two URLs with the same host whose paths still differ after the path
normalisations — extension stripping, trailing-slash `index`, leading-slash
removal, and `pathlib`'s collapsing of empty and `.` segments — derive
distinct output files.  (Distinct raw paths alone are not enough: the
counterexample conflates `.html` with `.htm`.) -/
theorem c2_output_path_injective (u1 u2 : Chars) (pr1 pr2 : ParseParts)
    (h1 : urlparseQ u1 [] = some pr1) (h2 : urlparseQ u2 [] = some pr2)
    (hd : pr1.netloc = pr2.netloc)
    (hn1 : (outputPathKey pr1.path ++ ".md".data).take 1 ≠ ['/'])
    (hn2 : (outputPathKey pr2.path ++ ".md".data).take 1 ≠ ['/'])
    (hkey : posixSegs (outputPathKey pr1.path ++ ".md".data) ≠
      posixSegs (outputPathKey pr2.path ++ ".md".data)) :
    MarkdownSavePipeline_generateOutputPath "output".data u1 ≠
      MarkdownSavePipeline_generateOutputPath "output".data u2 := by
  rw [generateOutputPath_factor _ _ _ h1, generateOutputPath_factor _ _ _ h2, hd]
  intro heq
  rw [Option.some.injEq] at heq
  have hdslash : ∀ c ∈ pr2.netloc, notDelim c = true := urlparseQ_netloc_clean h2
  have hdtake : pr2.netloc.take 1 ≠ ['/'] := by
    intro hcontra
    have hmem : '/' ∈ pr2.netloc := by
      refine List.take_subset 1 pr2.netloc ?_
      rw [hcontra]
      exact List.mem_cons_self _ _
    have := hdslash '/' hmem
    simp [notDelim] at this
  have hjoin : ∀ (a b : Chars), b.take 1 ≠ ['/'] → posixJoin a b = a ++ '/' :: b := by
    intro a b hb
    rw [posixJoin, if_neg hb]
  rw [hjoin _ _ hdtake, hjoin _ _ hn1, hjoin _ _ hn2] at heq
  rw [posixNorm, posixNorm] at heq
  have hsegsout : posixSegs ("output".data ++ '/' :: pr2.netloc) =
      posixSegs "output".data ++ posixSegs pr2.netloc := posixSegs_append_cons _ _
  have hsegs1 : posixSegs (("output".data ++ '/' :: pr2.netloc) ++ '/' ::
      (outputPathKey pr1.path ++ ".md".data)) =
      "output".data :: (posixSegs pr2.netloc ++
        posixSegs (outputPathKey pr1.path ++ ".md".data)) := by
    rw [posixSegs_append_cons, hsegsout]
    rfl
  have hsegs2 : posixSegs (("output".data ++ '/' :: pr2.netloc) ++ '/' ::
      (outputPathKey pr2.path ++ ".md".data)) =
      "output".data :: (posixSegs pr2.netloc ++
        posixSegs (outputPathKey pr2.path ++ ".md".data)) := by
    rw [posixSegs_append_cons, hsegsout]
    rfl
  rw [hsegs1, hsegs2] at heq
  have hroot1 : (("output".data ++ '/' :: pr2.netloc) ++ '/' ::
      (outputPathKey pr1.path ++ ".md".data)).take 2 = ['o', 'u'] := rfl
  have hroot2 : (("output".data ++ '/' :: pr2.netloc) ++ '/' ::
      (outputPathKey pr2.path ++ ".md".data)).take 2 = ['o', 'u'] := rfl
  rw [hroot1, hroot2] at heq
  simp only [List.cons_ne_nil, if_false, reduceCtorEq, List.nil_append] at heq
  have hclean1 : ∀ s ∈ "output".data :: (posixSegs pr2.netloc ++
      posixSegs (outputPathKey pr1.path ++ ".md".data)), s ≠ [] ∧ '/' ∉ s := by
    intro s hs
    rcases List.mem_cons.mp hs with h | h
    · subst h
      refine ⟨by simp, by decide⟩
    · rcases List.mem_append.mp h with h | h
      · exact mem_posixSegs_clean h
      · exact mem_posixSegs_clean h
  have hclean2 : ∀ s ∈ "output".data :: (posixSegs pr2.netloc ++
      posixSegs (outputPathKey pr2.path ++ ".md".data)), s ≠ [] ∧ '/' ∉ s := by
    intro s hs
    rcases List.mem_cons.mp hs with h | h
    · subst h
      refine ⟨by simp, by decide⟩
    · rcases List.mem_append.mp h with h | h
      · exact mem_posixSegs_clean h
      · exact mem_posixSegs_clean h
  have hlists := joinSlash_inj hclean1 hclean2 heq
  rw [List.cons.injEq] at hlists
  exact hkey (List.append_cancel_left hlists.2)

/-! ### Claim C9 — per-field error containment -/

/-- Claim C9: extraction failures are contained per field: `process` is the
record of the three independent extractions (so a failure inside one field
cannot abort the others), a raising title extraction yields `none`, a
raising tag extraction yields `[]`, a raising HTML→Markdown conversion
yields the empty string, and a raising content extraction yields the empty
string. -/
theorem c9_error_containment (conv : Chars → Except Chars Chars) (page : ConvPage)
    (titleSelectors tagsSelectors contentSelectors : List Chars) :
    BaseConverter_process conv page titleSelectors tagsSelectors contentSelectors =
      ⟨BaseConverter_extractTitle page titleSelectors,
       BaseConverter_extractTags page tagsSelectors,
       BaseConverter_extractContent conv page contentSelectors⟩ ∧
    (∀ e, BaseConverter_extractTitleE page titleSelectors = Except.error e →
      BaseConverter_extractTitle page titleSelectors = none) ∧
    (∀ e, BaseConverter_extractTagsE page tagsSelectors = Except.error e →
      BaseConverter_extractTags page tagsSelectors = []) ∧
    (∀ html e, conv html = Except.error e → BaseConverter_convert conv html = []) ∧
    (∀ e, BaseConverter_extractContentE conv page contentSelectors = Except.error e →
      BaseConverter_extractContent conv page contentSelectors = []) := by
  refine ⟨rfl, ?_, ?_, ?_, ?_⟩
  · intro e he
    rw [BaseConverter_extractTitle, he]
  · intro e he
    rw [BaseConverter_extractTags, he]
  · intro html e he
    rw [BaseConverter_convert, he]
  · intro e he
    rw [BaseConverter_extractContent, he]

/-- Witness for C9 on a page whose every query raises and a converter that
always raises: all three fields fall back together. -/
theorem c9_error_containment_witness :
    BaseConverter_process (fun _ => Except.error "boom".data)
      ⟨fun _ => Except.error "boom".data, fun _ => Except.error "boom".data,
       Except.error "boom".data, Except.error "boom".data, Except.error "boom".data⟩
      ["h1".data] ["p.tag".data] ["div".data] =
      ⟨none, [], []⟩ := by
  have h := c9_error_containment (fun _ => Except.error "boom".data)
    ⟨fun _ => Except.error "boom".data, fun _ => Except.error "boom".data,
     Except.error "boom".data, Except.error "boom".data, Except.error "boom".data⟩
    ["h1".data] ["p.tag".data] ["div".data]
  rw [h.1]
  rw [h.2.1 "boom".data rfl, h.2.2.1 "boom".data rfl, h.2.2.2.2 "boom".data rfl]

/-! ### Claim C8 — title extraction order and fallback -/

theorem bindE_ok {α β : Type} (a : α) (f : α → Except Chars β) :
    (Except.ok a : Except Chars α) >>= f = f a := rfl

theorem bindE_err {α β : Type} (e : Chars) (f : α → Except Chars β) :
    (Except.error e : Except Chars α) >>= f = Except.error e := rfl

theorem extractFirstTextE_textNodes_only (tn : Chars → Except Chars (List Chars))
    (hn1 hn2 : Chars → Except Chars (List Chars)) (o1 o2 k1 k2 a1 a2 : Except Chars (List Chars)) :
    ∀ sels, SelectorHelper_extractFirstTextE ⟨tn, hn1, o1, k1, a1⟩ sels =
      SelectorHelper_extractFirstTextE ⟨tn, hn2, o2, k2, a2⟩ sels := by
  intro sels
  induction sels with
  | nil => rfl
  | cons sel rest ih =>
    rw [SelectorHelper_extractFirstTextE, SelectorHelper_extractFirstTextE]
    dsimp only
    rcases tn sel with e | ns
    · rfl
    · simp only [bindE_ok]
      rcases ns.head? with _ | t
      · exact ih
      · dsimp only
        split
        · split
          · rfl
          · exact ih
        · exact ih

/-- Claim C8: title extraction tries the configured selectors in list order —
a selector whose first text node is missing or trims to empty falls through
to the next, the first selector whose first text node trims non-empty
returns that trimmed text and short-circuits (the `og:title` attribute is
never consulted: the result is the same for every `og:title` value), and
only when every selector fails does the `og:title` fallback apply, itself
yielding the trimmed attribute when truthy and `None` otherwise. -/
theorem c8_title_selector_chain (page : ConvPage) (sels : List Chars) (sel : Chars)
    (rest : List Chars) (t : Chars) (og : List Chars) :
    (SelectorHelper_extractFirstTextE page sels = Except.ok (some t) →
      ∀ ogv, BaseConverter_extractTitle
        ⟨page.textNodes, page.htmlNodes, ogv, page.keywords, page.articleTags⟩ sels = some t) ∧
    (∀ ns, page.textNodes sel = Except.ok ns →
      (ns.head? = none ∨ (∃ t0, ns.head? = some t0 ∧ pyStrip t0 = [])) →
      SelectorHelper_extractFirstTextE page (sel :: rest) =
        SelectorHelper_extractFirstTextE page rest) ∧
    (∀ ns t0, page.textNodes sel = Except.ok ns → ns.head? = some t0 → pyStrip t0 ≠ [] →
      SelectorHelper_extractFirstTextE page (sel :: rest) = Except.ok (some (pyStrip t0))) ∧
    (SelectorHelper_extractFirstTextE page sels = Except.ok none →
      page.ogTitle = Except.ok og →
      BaseConverter_extractTitle page sels =
        (match og.head? with
         | some t2 => if t2 ≠ [] then some (pyStrip t2) else none
         | none => none)) := by
  refine ⟨?_, ?_, ?_, ?_⟩
  · intro hok ogv
    have hsame : SelectorHelper_extractFirstTextE
        ⟨page.textNodes, page.htmlNodes, ogv, page.keywords, page.articleTags⟩ sels =
        Except.ok (some t) := by
      rw [extractFirstTextE_textNodes_only page.textNodes _ page.htmlNodes ogv page.ogTitle
        page.keywords page.keywords page.articleTags page.articleTags sels]
      exact hok
    rw [BaseConverter_extractTitle, BaseConverter_extractTitleE, hsame]
    rfl
  · intro ns hns hfail
    rw [SelectorHelper_extractFirstTextE]
    dsimp only
    rw [hns]
    simp only [bindE_ok]
    rcases hfail with h | ⟨t0, ht0, hstrip⟩
    · rw [h]
    · rw [ht0]
      dsimp only
      by_cases hget : t0 = []
      · rw [if_neg (by simp [hget])]
      · rw [if_pos (by simpa using hget)]
        rw [if_neg (by simpa using hstrip)]
  · intro ns t0 hns ht0 hstrip
    rw [SelectorHelper_extractFirstTextE]
    dsimp only
    rw [hns]
    simp only [bindE_ok]
    rw [ht0]
    dsimp only
    have ht0ne : t0 ≠ [] := by
      intro h
      subst h
      exact hstrip rfl
    rw [if_pos (by simpa using ht0ne), if_pos (by simpa using hstrip)]
  · intro hnone hog
    rw [BaseConverter_extractTitle, BaseConverter_extractTitleE, hnone]
    simp only [bindE_ok]
    rw [hog]
    simp only [bindE_ok]
    rcases og.head? with _ | t2
    · rfl
    · dsimp only
      by_cases ht2 : t2 = [] <;> simp [ht2]

/-- Witness for C8: the spec's fallback-ordering scenario — selectors
`["h1.missing", "h1.present"]` return the text found under `h1.present`,
never the `og:title` value. -/
theorem c8_title_selector_chain_witness :
    BaseConverter_extractTitle
      ⟨fun s => if s = "h1.present".data then Except.ok ["  Guide  ".data] else Except.ok [],
       fun _ => Except.ok [], Except.ok ["OG Title".data], Except.ok [], Except.ok []⟩
      ["h1.missing".data, "h1.present".data] = some "Guide".data := by
  have h := (c8_title_selector_chain
    ⟨fun s => if s = "h1.present".data then Except.ok ["  Guide  ".data] else Except.ok [],
     fun _ => Except.ok [], Except.ok ["OG Title".data], Except.ok [], Except.ok []⟩
    ["h1.missing".data, "h1.present".data] [] [] "Guide".data []).1
  exact h rfl (Except.ok ["OG Title".data])

/-! ### Scheme-prefix lemmas for `urljoin` -/

theorem bindO_some {α β : Type} (a : α) (f : α → Option β) :
    ((some a : Option α) >>= f) = f a := rfl

theorem bindO_none {α β : Type} (f : α → Option β) :
    ((none : Option α) >>= f) = none := rfl

theorem dropWhile_ne_append (ch : Char) (s rest : Chars) (hnc : ∀ c ∈ s, c ≠ ch) :
    (s ++ ch :: rest).dropWhile (fun c => c ≠ ch) = ch :: rest := by
  induction s with
  | nil => simp [List.dropWhile_cons]
  | cons a t ih =>
    have ha : a ≠ ch := hnc a (List.mem_cons_self a t)
    simp only [List.cons_append, List.dropWhile_cons]
    rw [if_pos (by simpa using ha)]
    exact ih fun c hc => hnc c (List.mem_cons_of_mem a hc)

theorem takeWhile_ne_append (ch : Char) (s rest : Chars) (hnc : ∀ c ∈ s, c ≠ ch) :
    (s ++ ch :: rest).takeWhile (fun c => c ≠ ch) = s := by
  induction s with
  | nil => simp [List.takeWhile_cons]
  | cons a t ih =>
    have ha : a ≠ ch := hnc a (List.mem_cons_self a t)
    simp only [List.cons_append, List.takeWhile_cons]
    rw [if_pos (by simpa using ha)]
    rw [ih fun c hc => hnc c (List.mem_cons_of_mem a hc)]

theorem schemeSplit_pre (s rest : Chars) (hne : s ≠ [])
    (hnc : ∀ c ∈ s, c ≠ ':') (hv : validSchemeText s = true) :
    schemeSplit (s ++ ':' :: rest) = (lowerChars s, rest) := by
  rw [schemeSplit, dropWhile_ne_append ':' s rest hnc, takeWhile_ne_append ':' s rest hnc]
  split
  · rename_i r heq
    injection heq with h1 h2
    subst h2
    rw [if_pos ⟨hne, hv⟩]
  · rename_i hx
    exact absurd rfl (hx rest)

theorem urlsplitCore_scheme_of_pre (s rest ds : Chars) (hne : s ≠ [])
    (hnc : ∀ c ∈ s, c ≠ ':') (hv : validSchemeText s = true) :
    (urlsplitCore (s ++ ':' :: rest) ds).scheme = lowerChars s := by
  rw [urlsplitCore]
  dsimp only
  rw [schemeSplit_pre s rest hne hnc hv]
  dsimp only
  rw [if_neg (by simp [lowerChars, List.map_eq_nil_iff, hne])]

theorem urlparseCore_scheme (sp : SplitParts) : (urlparseCore sp).scheme = sp.scheme := by
  rw [urlparseCore]
  split <;> rfl

theorem lstripC0_cons (c : Char) (l : Chars) (h : isC0OrSpace c = false) :
    lstripC0 (c :: l) = c :: l := by
  rw [lstripC0, List.dropWhile_cons, if_neg (by simp [h])]

theorem urlparseQ_scheme_of_pre {s rest ds : Chars} {pu : ParseParts} (hne : s ≠ [])
    (hnc : ∀ c ∈ s, c ≠ ':') (hv : validSchemeText s = true)
    (hc0 : lstripC0 (s ++ ':' :: rest) = s ++ ':' :: rest)
    (hclean : removeUnsafe s = s)
    (h : urlparseQ (s ++ ':' :: rest) ds = some pu) :
    pu.scheme = lowerChars s := by
  rw [urlparseQ] at h
  rcases hsp : urlsplitQ (s ++ ':' :: rest) ds with _ | sp
  · rw [hsp] at h
    simp at h
  · rw [hsp] at h
    simp only [Option.map_some', Option.some.injEq] at h
    rw [← h, urlparseCore_scheme]
    have he := (urlsplitQ_eq_some hsp).1
    rw [he, hc0]
    have hru : removeUnsafe (s ++ ':' :: rest) = s ++ ':' :: removeUnsafe rest := by
      rw [removeUnsafe] at hclean ⊢
      rw [List.filter_append, hclean, List.filter_cons, if_pos (by decide), removeUnsafe]
    rw [hru]
    exact urlsplitCore_scheme_of_pre s (removeUnsafe rest) _ hne hnc hv

theorem urljoinQ_scheme_untouched (base s rest : Chars) (hne : s ≠ [])
    (hnc : ∀ c ∈ s, c ≠ ':') (hv : validSchemeText s = true)
    (hc0 : lstripC0 (s ++ ':' :: rest) = s ++ ':' :: rest)
    (hclean : removeUnsafe s = s) (hnrel : lowerChars s ∉ usesRelative)
    (hsome : (urljoinQ base (s ++ ':' :: rest)).isSome = true) :
    urljoinQ base (s ++ ':' :: rest) = some (s ++ ':' :: rest) := by
  rw [urljoinQ] at hsome ⊢
  by_cases hb : base = []
  · rw [if_pos hb]
  · rw [if_neg hb] at hsome ⊢
    have hune : ¬ (s ++ ':' :: rest = []) := by simp
    rw [if_neg hune] at hsome ⊢
    rcases hpb : urlparseQ base [] with _ | bp
    · rw [hpb, bindO_none] at hsome
      simp at hsome
    · rw [hpb] at hsome
      simp only [bindO_some] at hsome ⊢
      rcases hpu : urlparseQ (s ++ ':' :: rest) bp.scheme with _ | pu
      · rw [hpu, bindO_none] at hsome
        simp at hsome
      · rw [hpu] at hsome
        simp only [bindO_some] at hsome ⊢
        have hps : pu.scheme = lowerChars s :=
          urlparseQ_scheme_of_pre hne hnc hv hc0 hclean hpu
        rw [if_pos (Or.inr (by rw [hps]; exact hnrel))]
        rfl

/-! ### Claim C6 — skip lists of the three Markdown rewrites -/

/-- Counterexample to C6 as stated: the image rewrite's skip tuple omits
`mailto:`, so a `mailto:`-prefixed URL is not left untouched — it is fed to
`urljoin`, which here raises (`Invalid IPv6 URL`). -/
theorem c6_counterexample :
    startsWithL "mailto://[a".data "mailto:".data = true ∧
    replace_image_url "https://e.com/x".data "a".data "mailto://[a".data = none := by
  decide

/-- Claim C6 (amended): each of the three Markdown rewrites leaves a URL
untouched exactly when it starts with one of that rewrite's own skip
prefixes — `http://`, `https://`, `data:`, `#` for images; `http://`,
`https://`, `mailto:`, `tel:`, `#` for inline links; `http://`, `https://`,
`#` for reference definitions — and resolves every other URL against the
base.  For the scheme prefixes missing from a rewrite's skip tuple
(`mailto:`, `tel:`, `data:`), whenever `urljoin` returns at all it returns
the URL unchanged, so the rewritten URL still equals the original. -/
theorem c6_markdown_url_rules (base alt text ref ws url : Chars) :
    (startsWithOne imageSkip url = true →
      replace_image_url base alt url = some (imageGroup0 alt url)) ∧
    (startsWithOne linkSkip url = true →
      replace_link_url base text url = some (linkGroup0 text url)) ∧
    (startsWithOne refSkip url = true →
      replace_ref_url base ref ws url = some (refGroup0 ref ws url)) ∧
    (startsWithOne imageSkip url = false →
      replace_image_url base alt url = (urljoinQ base url).map fun a => imageGroup0 alt a) ∧
    (startsWithOne linkSkip url = false →
      replace_link_url base text url = (urljoinQ base url).map fun a => linkGroup0 text a) ∧
    (startsWithOne refSkip url = false →
      replace_ref_url base ref ws url = (urljoinQ base url).map fun a => refGroup0 ref [' '] a) ∧
    ((startsWithL url "mailto:".data = true ∨ startsWithL url "tel:".data = true ∨
        startsWithL url "data:".data = true) →
      (urljoinQ base url).isSome = true →
      imageUrlRewrite base url = some url ∧ linkUrlRewrite base url = some url ∧
        refUrlRewrite base url = some url) := by
  refine ⟨?_, ?_, ?_, ?_, ?_, ?_, ?_⟩
  · intro h
    rw [replace_image_url, if_pos h]
  · intro h
    rw [replace_link_url, if_pos h]
  · intro h
    rw [replace_ref_url, if_pos h]
  · intro h
    rw [replace_image_url, if_neg (by simp [h])]
  · intro h
    rw [replace_link_url, if_neg (by simp [h])]
  · intro h
    rw [replace_ref_url, if_neg (by simp [h])]
  · intro hpre hsome
    have hid : urljoinQ base url = some url := by
      rcases hpre with h | h | h
      · have hp : "mailto:".data <+: url := of_decide_eq_true h
        obtain ⟨rest, hrest⟩ := hp
        rw [← hrest] at hsome ⊢
        exact urljoinQ_scheme_untouched base "mailto".data rest (by decide) (by decide)
          (by decide)
          (by rw [show "mailto".data = 'm' :: "ailto".data from rfl, List.cons_append]
              exact lstripC0_cons 'm' _ (by decide))
          (by decide) (by decide) hsome
      · have hp : "tel:".data <+: url := of_decide_eq_true h
        obtain ⟨rest, hrest⟩ := hp
        rw [← hrest] at hsome ⊢
        exact urljoinQ_scheme_untouched base "tel".data rest (by decide) (by decide)
          (by decide)
          (by rw [show "tel".data = 't' :: "el".data from rfl, List.cons_append]
              exact lstripC0_cons 't' _ (by decide))
          (by decide) (by decide) hsome
      · have hp : "data:".data <+: url := of_decide_eq_true h
        obtain ⟨rest, hrest⟩ := hp
        rw [← hrest] at hsome ⊢
        exact urljoinQ_scheme_untouched base "data".data rest (by decide) (by decide)
          (by decide)
          (by rw [show "data".data = 'd' :: "ata".data from rfl, List.cons_append]
              exact lstripC0_cons 'd' _ (by decide))
          (by decide) (by decide) hsome
    refine ⟨?_, ?_, ?_⟩
    · rw [imageUrlRewrite]
      by_cases hsk : startsWithOne imageSkip url = true
      · rw [if_pos hsk]
      · rw [if_neg (by simp at hsk ⊢; exact hsk)]
        exact hid
    · rw [linkUrlRewrite]
      by_cases hsk : startsWithOne linkSkip url = true
      · rw [if_pos hsk]
      · rw [if_neg (by simp at hsk ⊢; exact hsk)]
        exact hid
    · rw [refUrlRewrite]
      by_cases hsk : startsWithOne refSkip url = true
      · rw [if_pos hsk]
      · rw [if_neg (by simp at hsk ⊢; exact hsk)]
        exact hid

/-- Witness for the amended C6: a skip-listed link URL is kept verbatim, a
`mailto:` image URL survives its trip through `urljoin` unchanged, and a
plain relative image URL is resolved against the base. -/
theorem c6_markdown_url_rules_witness :
    replace_link_url "https://e.com/a/".data "t".data "mailto:x@y".data =
      some (linkGroup0 "t".data "mailto:x@y".data) ∧
    imageUrlRewrite "https://e.com/a/".data "mailto:x@y".data = some "mailto:x@y".data ∧
    replace_image_url "https://e.com/a/".data "alt".data "img.png".data =
      (urljoinQ "https://e.com/a/".data "img.png".data).map
        fun a => imageGroup0 "alt".data a := by
  refine ⟨?_, ?_, ?_⟩
  · exact (c6_markdown_url_rules "https://e.com/a/".data [] "t".data [] []
      "mailto:x@y".data).2.1 (by decide)
  · exact ((c6_markdown_url_rules "https://e.com/a/".data [] [] [] []
      "mailto:x@y".data).2.2.2.2.2.2 (Or.inl (by decide)) (by decide)).1
  · exact (c6_markdown_url_rules "https://e.com/a/".data "alt".data [] [] []
      "img.png".data).2.2.2.1 (by decide)

/-! ### Claim C7 — front-matter round trip -/

theorem joinLines_append : ∀ (a b : List Chars),
    joinLines (a ++ b) = joinLines a ++ joinLines b := by
  intro a b
  induction a with
  | nil => simp [joinLines]
  | cons l t ih =>
    simp only [List.cons_append, joinLines, List.append_eq, ih, List.append_assoc]

theorem yamlDumpEntry_lines : ∀ e : Chars × YamlVal,
    yamlDumpEntry e = joinLines (entryLines e) := by
  intro e
  rcases e with ⟨k, v | vs⟩
  · simp [yamlDumpEntry, entryLines, joinLines]
  · rw [show entryLines (k, YamlVal.list vs) =
      (k ++ [':']) :: vs.map (fun v => '-' :: ' ' :: v) from rfl]
    rw [yamlDumpEntry, joinLines]
    have hitems : ∀ ws : List Chars,
        joinLines (ws.map (fun v => '-' :: ' ' :: v)) =
          ws.foldr (fun v acc => '-' :: ' ' :: (v ++ '\n' :: acc)) [] := by
      intro ws
      induction ws with
      | nil => rfl
      | cons w t ih => simp [joinLines, ih]
    rw [hitems]
    simp

theorem yamlDump_lines (m : Metadata) :
    yamlDump m = joinLines (linesOf (sortByKey m)) := by
  rw [yamlDump]
  have : ∀ M : Metadata,
      M.foldr (fun e acc => yamlDumpEntry e ++ acc) [] = joinLines (linesOf M) := by
    intro M
    induction M with
    | nil => rfl
    | cons e t ih =>
      rw [List.foldr_cons, ih, show linesOf (e :: t) = entryLines e ++ linesOf t from rfl,
        joinLines_append, yamlDumpEntry_lines]
  exact this _

theorem joinLines_eq_inter : ∀ ls : List Chars, ls ≠ [] →
    joinLines ls = interLines ls ++ ['\n'] := by
  intro ls
  induction ls with
  | nil => intro h; exact absurd rfl h
  | cons l t ih =>
    intro _
    rcases t with _ | ⟨l2, t2⟩
    · rfl
    · rw [joinLines, ih (by simp),
        show interLines (l :: l2 :: t2) = l ++ '\n' :: interLines (l2 :: t2) from rfl]
      simp

theorem splitOnChar_no_occ (ch : Char) : ∀ (l : Chars), ch ∉ l →
    splitOnChar ch l = [l] := by
  intro l
  induction l with
  | nil => intro _; rfl
  | cons c cs ih =>
    intro h
    rw [splitOnChar,
      if_neg (show ¬ (c = ch) from fun hh => h (hh ▸ List.mem_cons_self c cs))]
    rw [ih (fun hm => h (List.mem_cons_of_mem c hm))]

theorem splitOnChar_interLines : ∀ (ls : List Chars), ls ≠ [] →
    (∀ l ∈ ls, '\n' ∉ l) → splitOnChar '\n' (interLines ls) = ls := by
  intro ls
  induction ls with
  | nil => intro h; exact absurd rfl h
  | cons l t ih =>
    intro _ h
    rcases t with _ | ⟨l2, t2⟩
    · exact splitOnChar_no_occ '\n' l (h l (List.mem_cons_self l []))
    · rw [show interLines (l :: l2 :: t2) = l ++ '\n' :: interLines (l2 :: t2) from rfl]
      rw [splitOnChar_append_cons,
        splitOnChar_no_occ '\n' l (h l (List.mem_cons_self l _)),
        ih (by simp) (fun x hx => h x (List.mem_cons_of_mem l hx))]
      rfl

theorem breakFirstSeq_self (B : Chars) :
    breakFirstSeq "\n---\n".data ("\n---\n".data ++ B) = some ([], B) := by
  show breakFirstSeq "\n---\n".data ('\n' :: '-' :: '-' :: '-' :: '\n' :: B) = some ([], B)
  rw [breakFirstSeq, if_pos (show "\n---\n".data <+: '\n' :: '-' :: '-' :: '-' :: '\n' :: B
    from List.prefix_append "\n---\n".data B)]
  rfl

theorem breakFirstSeq_skip_line : ∀ (l tail : Chars), '\n' ∉ l →
    breakFirstSeq "\n---\n".data (l ++ tail) =
      (breakFirstSeq "\n---\n".data tail).map fun pq => (l ++ pq.1, pq.2) := by
  intro l
  induction l with
  | nil =>
    intro tail _
    rw [List.nil_append]
    rcases breakFirstSeq "\n---\n".data tail with _ | ⟨a, b⟩ <;> simp
  | cons c l' ih =>
    intro tail h
    have hc : c ≠ '\n' := fun hh => h (hh ▸ List.mem_cons_self c l')
    rw [List.cons_append, breakFirstSeq]
    rw [if_neg ?hnp]
    case hnp =>
      intro hp
      obtain ⟨t, ht⟩ := hp
      have ht' : '\n' :: ('-' :: '-' :: '-' :: '\n' :: t) = c :: (l' ++ tail) := ht
      injection ht' with h1 _
      exact hc h1.symm
    rw [ih tail (fun hm => h (List.mem_cons_of_mem c hm))]
    rcases breakFirstSeq "\n---\n".data tail with _ | ⟨a, b⟩ <;> simp

theorem newline_block_no_match (l2 z : Chars) (h2 : l2 ≠ [])
    (hno : l2.take 2 ≠ ['-', '-']) (hz : z.head? = some '\n') :
    ¬ ("\n---\n".data <+: '\n' :: (l2 ++ z)) := by
  intro hp
  obtain ⟨t, ht⟩ := hp
  have ht' : '\n' :: ('-' :: '-' :: '-' :: '\n' :: t) = '\n' :: (l2 ++ z) := ht
  injection ht' with _ ht2
  rcases l2 with _ | ⟨c1, l2r⟩
  · exact h2 rfl
  · rcases l2r with _ | ⟨c2, l2r2⟩
    · rw [List.cons_append, List.nil_append] at ht2
      injection ht2 with hc1 ht3
      rw [← ht3] at hz
      simp at hz
    · rw [List.cons_append, List.cons_append] at ht2
      injection ht2 with hc1 ht3
      injection ht3 with hc2 _
      exact hno (by rw [show (c1 :: c2 :: l2r2).take 2 = [c1, c2] from rfl, ← hc1, ← hc2])

theorem breakFirstSeq_yaml : ∀ (ls : List Chars) (B : Chars),
    (∀ l ∈ ls, l ≠ [] ∧ '\n' ∉ l ∧ l.take 2 ≠ ['-', '-']) →
    breakFirstSeq "\n---\n".data
      (interLines ls ++ '\n' :: '-' :: '-' :: '-' :: '\n' :: B) =
      some (interLines ls, B) := by
  intro ls
  induction ls with
  | nil =>
    intro B _
    rw [show interLines [] = [] from rfl, List.nil_append]
    exact breakFirstSeq_self B
  | cons l t ih =>
    intro B h
    have hl := h l (List.mem_cons_self l t)
    rcases t with _ | ⟨l2, t2⟩
    · rw [show interLines [l] = l from rfl]
      rw [show l ++ '\n' :: '-' :: '-' :: '-' :: '\n' :: B =
        l ++ ("\n---\n".data ++ B) from rfl]
      rw [breakFirstSeq_skip_line l _ hl.2.1, breakFirstSeq_self B]
      simp
    · have hl2 := h l2 (List.mem_cons_of_mem l (List.mem_cons_self l2 t2))
      rw [show interLines (l :: l2 :: t2) = l ++ '\n' :: interLines (l2 :: t2) from rfl]
      have hx : ∃ z, interLines (l2 :: t2) ++ '\n' :: '-' :: '-' :: '-' :: '\n' :: B =
          l2 ++ z ∧ z.head? = some '\n' := by
        rcases t2 with _ | ⟨l3, t3⟩
        · exact ⟨'\n' :: '-' :: '-' :: '-' :: '\n' :: B, rfl, rfl⟩
        · exact ⟨'\n' :: (interLines (l3 :: t3) ++ '\n' :: '-' :: '-' :: '-' :: '\n' :: B),
            by rw [show interLines (l2 :: l3 :: t3) =
                l2 ++ '\n' :: interLines (l3 :: t3) from rfl]
               simp, rfl⟩
      obtain ⟨z, hz1, hz2⟩ := hx
      rw [List.append_assoc, List.cons_append]
      rw [breakFirstSeq_skip_line l _ hl.2.1]
      rw [breakFirstSeq]
      rw [if_neg (by rw [hz1]; exact newline_block_no_match l2 z hl2.1 hl2.2.2 hz2)]
      rw [ih B (fun x hx => h x (List.mem_cons_of_mem l hx))]
      simp

theorem keyLe_refl : ∀ k : Chars, keyLe k k = true := by
  intro k
  induction k with
  | nil => rfl
  | cons a t ih => rw [keyLe, if_pos rfl]; exact ih

theorem insertSortedKey_ne_nil (x : Chars × YamlVal) (m : Metadata) :
    insertSortedKey x m ≠ [] := by
  cases m with
  | nil => simp [insertSortedKey]
  | cons y ys =>
    rw [insertSortedKey]
    split <;> simp

theorem sortByKey_ne_nil {m : Metadata} (h : m ≠ []) : sortByKey m ≠ [] := by
  cases m with
  | nil => exact absurd rfl h
  | cons e t => exact insertSortedKey_ne_nil e (sortByKey t)

theorem mem_insertSortedKey {a x : Chars × YamlVal} :
    ∀ {m : Metadata}, a ∈ insertSortedKey x m → a = x ∨ a ∈ m := by
  intro m
  induction m with
  | nil =>
    intro h
    simp [insertSortedKey] at h
    exact Or.inl h
  | cons y ys ih =>
    intro h
    rw [insertSortedKey] at h
    split at h
    · rcases List.mem_cons.mp h with h | h
      · exact Or.inl h
      · exact Or.inr h
    · rcases List.mem_cons.mp h with h | h
      · exact Or.inr (h ▸ List.mem_cons_self y ys)
      · rcases ih h with h | h
        · exact Or.inl h
        · exact Or.inr (List.mem_cons_of_mem y h)

theorem mem_sortByKey {a : Chars × YamlVal} :
    ∀ {m : Metadata}, a ∈ sortByKey m → a ∈ m := by
  intro m
  induction m with
  | nil => intro h; simp [sortByKey] at h
  | cons e t ih =>
    intro h
    rcases mem_insertSortedKey h with h | h
    · exact h ▸ List.mem_cons_self e t
    · exact List.mem_cons_of_mem e (ih h)

theorem lookup_cons {β : Type} (k : Chars) (y : Chars × β) (ys : List (Chars × β)) :
    List.lookup k (y :: ys) = if k = y.1 then some y.2 else List.lookup k ys := by
  rcases y with ⟨a, b⟩
  by_cases hk : k = a
  · simp [List.lookup, hk]
  · have hb : (k == a) = false := by simp [hk]
    simp [List.lookup, hb, hk]

theorem lookup_insertSortedKey (x : Chars × YamlVal) (k : Chars) :
    ∀ m : Metadata, (insertSortedKey x m).lookup k =
      if k = x.1 then some x.2 else m.lookup k := by
  intro m
  induction m with
  | nil =>
    rw [show insertSortedKey x [] = [x] from rfl, lookup_cons]
  | cons y ys ih =>
    rw [insertSortedKey]
    by_cases hle : keyLe x.1 y.1 = true
    · rw [if_pos hle, lookup_cons]
    · rw [if_neg hle, lookup_cons, ih, lookup_cons]
      by_cases hky : k = y.1
      · by_cases hkx : k = x.1
        · exact absurd (hkx ▸ hky ▸ keyLe_refl k) hle
        · rw [if_pos hky, if_neg hkx, if_pos hky]
      · by_cases hkx : k = x.1
        · rw [if_neg hky, if_pos hkx, if_pos hkx]
        · rw [if_neg hky, if_neg hkx, if_neg hkx, if_neg hky]

theorem lookup_sortByKey (k : Chars) :
    ∀ m : Metadata, (sortByKey m).lookup k = m.lookup k := by
  intro m
  induction m with
  | nil => rfl
  | cons e t ih =>
    rw [show sortByKey (e :: t) = insertSortedKey e (sortByKey t) from rfl,
      lookup_insertSortedKey, ih, lookup_cons]

theorem plainScalarOk_no_newline {v : Chars} (h : plainScalarOk v = true) :
    '\n' ∉ v := by
  intro hm
  simp only [plainScalarOk, Bool.and_eq_true] at h
  have := List.all_eq_true.mp h.1.1.2 '\n' hm
  simp at this

theorem breakFirst_key (k v' : Chars) (hk : ':' ∉ k) :
    breakFirst ':' (k ++ ':' :: v') = some (k, v') := by
  have hnc : ∀ c ∈ k, c ≠ ':' := fun c hc hh => hk (hh ▸ hc)
  rw [breakFirst,
    if_pos (show ':' ∈ k ++ ':' :: v' from List.mem_append_right k (List.mem_cons_self _ _)),
    takeWhile_ne_append ':' k v' hnc, dropWhile_ne_append ':' k v' hnc]
  rfl

theorem yamlParseItems_map : ∀ (vs : List Chars) (rest : List Chars),
    (∀ l, rest.head? = some l → l.take 2 ≠ ['-', ' ']) →
    (yamlParseItems (vs.map (fun v => '-' :: ' ' :: v) ++ rest)).1 = vs ∧
    (yamlParseItems (vs.map (fun v => '-' :: ' ' :: v) ++ rest)).2.1 = rest := by
  intro vs
  induction vs with
  | nil =>
    intro rest hrest
    simp only [List.map_nil, List.nil_append]
    rcases rest with _ | ⟨ln, rest'⟩
    · exact ⟨rfl, rfl⟩
    · rw [yamlParseItems, if_neg (hrest ln rfl)]
      exact ⟨rfl, rfl⟩
  | cons v vs' ih =>
    intro rest hrest
    simp only [List.map_cons, List.cons_append]
    rw [yamlParseItems,
      if_pos (show ('-' :: ' ' :: v).take 2 = ['-', ' '] from rfl)]
    have h := ih rest hrest
    refine ⟨?_, ?_⟩
    · show (('-' :: ' ' :: v).drop 2) ::
        (yamlParseItems (vs'.map (fun v => '-' :: ' ' :: v) ++ rest)).1 = v :: vs'
      rw [h.1]
      rfl
    · show (yamlParseItems (vs'.map (fun v => '-' :: ' ' :: v) ++ rest)).2.1 = rest
      exact h.2

theorem yamlLoadLinesGo_irrel (fuel : Nat) (l1 l2 : List Chars) (heq : l1 = l2)
    (h1 : l1.length ≤ fuel) (h2 : l2.length ≤ fuel) :
    yamlLoadLinesGo fuel l1 h1 = yamlLoadLinesGo fuel l2 h2 := by
  subst heq
  rfl

theorem linesOf_head_take2 (M : Metadata)
    (h : ∀ e ∈ M, e.1 ≠ [] ∧ e.1.head? ≠ some '-') :
    ∀ l, (linesOf M).head? = some l → l.take 2 ≠ ['-', ' '] := by
  intro l hl heq
  rcases M with _ | ⟨e, t⟩
  · simp [linesOf] at hl
  · obtain ⟨h1, h4⟩ := h e (List.mem_cons_self e t)
    rcases e with ⟨k, v⟩
    rcases k with _ | ⟨c, k'⟩
    · exact h1 rfl
    · rcases v with v | vs
      · rw [show linesOf ((c :: k', YamlVal.s v) :: t) =
          (c :: (k' ++ ':' :: ' ' :: v)) :: linesOf t from rfl] at hl
        rw [List.head?_cons, Option.some.injEq] at hl
        rw [← hl] at heq
        rw [show (c :: (k' ++ ':' :: ' ' :: v)).take 2 =
          c :: (k' ++ ':' :: ' ' :: v).take 1 from rfl] at heq
        injection heq with hc _
        exact h4 (by rw [List.head?_cons, hc])
      · rw [show linesOf ((c :: k', YamlVal.list vs) :: t) =
          (c :: (k' ++ [':'])) :: (vs.map (fun v => '-' :: ' ' :: v) ++ linesOf t)
          from rfl] at hl
        rw [List.head?_cons, Option.some.injEq] at hl
        rw [← hl] at heq
        rw [show (c :: (k' ++ [':'])).take 2 = c :: (k' ++ [':']).take 1 from rfl] at heq
        injection heq with hc _
        exact h4 (by rw [List.head?_cons, hc])

theorem linesOf_ok : ∀ (M : Metadata),
    (∀ e ∈ M, e.1 ≠ [] ∧ ':' ∉ e.1 ∧ '\n' ∉ e.1 ∧ e.1.head? ≠ some '-' ∧
      (∀ v, e.2 = YamlVal.s v → '\n' ∉ v) ∧
      (∀ vs, e.2 = YamlVal.list vs → ∀ v ∈ vs, '\n' ∉ v)) →
    ∀ l ∈ linesOf M, l ≠ [] ∧ '\n' ∉ l ∧ l.take 2 ≠ ['-', '-'] := by
  intro M
  induction M with
  | nil => intro _ l hl; simp [linesOf] at hl
  | cons e t ih =>
    intro h l hl
    rw [show linesOf (e :: t) = entryLines e ++ linesOf t from rfl] at hl
    rcases List.mem_append.mp hl with hl | hl
    · obtain ⟨h1, h2, h3, h4, h5, h6⟩ := h e (List.mem_cons_self e t)
      rcases e with ⟨k, v | vs⟩
      · rw [show entryLines (k, YamlVal.s v) = [k ++ ':' :: ' ' :: v] from rfl] at hl
        rw [List.mem_singleton] at hl
        subst hl
        have hvn : '\n' ∉ v := h5 v rfl
        refine ⟨by simp, ?_, ?_⟩
        · intro hm
          rcases List.mem_append.mp hm with hm | hm
          · exact h3 hm
          · rcases List.mem_cons.mp hm with hm | hm
            · exact absurd hm (by decide)
            · rcases List.mem_cons.mp hm with hm | hm
              · exact absurd hm (by decide)
              · exact hvn hm
        · rcases k with _ | ⟨c, k'⟩
          · exact absurd rfl h1
          · intro hcontra
            rw [List.cons_append] at hcontra
            rw [show (c :: (k' ++ ':' :: ' ' :: v)).take 2 =
              c :: (k' ++ ':' :: ' ' :: v).take 1 from rfl] at hcontra
            injection hcontra with hc _
            exact h4 (by rw [List.head?_cons, hc])
      · rw [show entryLines (k, YamlVal.list vs) =
          (k ++ [':']) :: vs.map (fun v => '-' :: ' ' :: v) from rfl] at hl
        rcases List.mem_cons.mp hl with hl | hl
        · subst hl
          refine ⟨by simp, ?_, ?_⟩
          · intro hm
            rcases List.mem_append.mp hm with hm | hm
            · exact h3 hm
            · rcases List.mem_cons.mp hm with hm | hm
              · exact absurd hm (by decide)
              · simp at hm
          · rcases k with _ | ⟨c, k'⟩
            · exact absurd rfl h1
            · intro hcontra
              rw [List.cons_append] at hcontra
              rw [show (c :: (k' ++ [':'])).take 2 =
                c :: (k' ++ [':']).take 1 from rfl] at hcontra
              injection hcontra with hc _
              exact h4 (by rw [List.head?_cons, hc])
        · obtain ⟨v, hv, hlv⟩ := List.mem_map.mp hl
          rw [← hlv]
          refine ⟨by simp, ?_, ?_⟩
          · intro hm
            rcases List.mem_cons.mp hm with hm | hm
            · exact absurd hm (by decide)
            · rcases List.mem_cons.mp hm with hm | hm
              · exact absurd hm (by decide)
              · exact h6 vs rfl v hv hm
          · intro hc
            rw [show ('-' :: ' ' :: v).take 2 = ['-', ' '] from rfl] at hc
            simp at hc
    · exact ih (fun e' he' => h e' (List.mem_cons_of_mem e he')) l hl

theorem linesOf_ne_nil {M : Metadata} (h : M ≠ []) : linesOf M ≠ [] := by
  rcases M with _ | ⟨⟨k, v | vs⟩, t⟩
  · exact absurd rfl h
  · simp [linesOf, entryLines]
  · simp [linesOf, entryLines]

theorem yamlLoadLinesGo_linesOf : ∀ (M : Metadata) (fuel : Nat)
    (hf : (linesOf M).length ≤ fuel),
    (∀ e ∈ M, e.1 ≠ [] ∧ ':' ∉ e.1 ∧ '\n' ∉ e.1 ∧ e.1.head? ≠ some '-' ∧
      (∀ v, e.2 = YamlVal.s v → '\n' ∉ v) ∧
      (∀ vs, e.2 = YamlVal.list vs → ∀ v ∈ vs, '\n' ∉ v)) →
    yamlLoadLinesGo fuel (linesOf M) hf = some M := by
  intro M
  induction M with
  | nil =>
    intro fuel hf _
    cases fuel <;> rfl
  | cons e t ih =>
    intro fuel hf h
    obtain ⟨h1, h2, h3, h4, h5, h6⟩ := h e (List.mem_cons_self e t)
    have ht := fun e' he' => h e' (List.mem_cons_of_mem e he')
    rcases e with ⟨k, v | vs⟩
    · show yamlLoadLinesGo fuel ((k ++ ':' :: ' ' :: v) :: linesOf t) hf =
        some ((k, YamlVal.s v) :: t)
      rcases fuel with _ | f
      · exact absurd hf (by simp [linesOf, entryLines])
      · have hlen : (linesOf t).length ≤ f := by
          have hf' := hf
          simp only [show linesOf ((k, YamlVal.s v) :: t) =
            (k ++ ':' :: ' ' :: v) :: linesOf t from rfl, List.length_cons] at hf'
          omega
        rw [yamlLoadLinesGo, breakFirst_key k (' ' :: v) h2]
        dsimp only
        rw [if_neg (show ¬ (' ' :: v = []) by simp),
          if_pos (show (' ' :: v).take 1 = [' '] from rfl)]
        rw [ih f hlen ht]
        rfl
    · show yamlLoadLinesGo fuel
        ((k ++ [':']) :: (vs.map (fun v => '-' :: ' ' :: v) ++ linesOf t)) hf =
        some ((k, YamlVal.list vs) :: t)
      rcases fuel with _ | f
      · exact absurd hf (by simp [linesOf, entryLines])
      · have hlen : (linesOf t).length ≤ f := by
          have hf' := hf
          simp only [show linesOf ((k, YamlVal.list vs) :: t) =
            (k ++ [':']) :: (vs.map (fun v => '-' :: ' ' :: v) ++ linesOf t) from rfl,
            List.length_cons, List.length_append, List.length_map] at hf'
          omega
        rw [yamlLoadLinesGo, breakFirst_key k [] h2]
        dsimp only
        rw [if_pos rfl]
        have hpi := yamlParseItems_map vs (linesOf t)
          (linesOf_head_take2 t (fun e' he' => ⟨(ht e' he').1, (ht e' he').2.2.2.1⟩))
        rw [hpi.1]
        rw [yamlLoadLinesGo_irrel f _ (linesOf t) hpi.2 _ hlen]
        rw [ih f hlen ht]
        rfl

/-- Claim C7: round-trip persistence — assembling the front-matter document
for an item whose metadata carries `url = "https://x.io/a/b.html"` (the
remaining fields drawn from the plain-scalar subset on which the PyYAML
model is exact), writing it, and preloading the persisted store recovers a
cache entry keyed by exactly that URL. -/
theorem metadata_key_facts (k : Chars)
    (hk : k = "url".data ∨ k = "title".data ∨ k = "tags".data ∨
      k = "framework".data ∨ k = "crawl_time".data) :
    k ≠ [] ∧ ':' ∉ k ∧ '\n' ∉ k ∧ k.head? ≠ some '-' := by
  rcases hk with h | h | h | h | h <;> subst h <;>
    exact ⟨by decide, by decide, by decide, by decide⟩

theorem c7_front_matter_roundtrip (it : BlogItemData) (now body path : Chars)
    (hurl : it.url = some "https://x.io/a/b.html".data)
    (htitle : ∀ t, it.title = some t → plainScalarOk t = true)
    (htags : ∀ t ∈ it.tags, plainScalarOk t = true)
    (hfw : ∀ f, it.framework = some f → plainScalarOk f = true)
    (hct : ∀ t, it.crawlTime = some t → plainScalarOk t = true)
    (hnow : plainScalarOk now = true) :
    ∃ e, (CacheMiddleware_preloadFromOutput
        [(path, MarkdownSavePipeline_buildMarkdown
          (MarkdownSavePipeline_buildMetadata it now) body)]).lookup
      "https://x.io/a/b.html".data = some e := by
  have hurlpart : (match it.url with
      | some u => if u ≠ [] then [("url".data, YamlVal.s u)] else []
      | none => ([] : Metadata)) =
      [("url".data, YamlVal.s "https://x.io/a/b.html".data)] := by
    rw [hurl]
    rfl
  have hmem : ∀ e ∈ MarkdownSavePipeline_buildMetadata it now,
      e.1 ≠ [] ∧ ':' ∉ e.1 ∧ '\n' ∉ e.1 ∧ e.1.head? ≠ some '-' ∧
      (∀ v, e.2 = YamlVal.s v → '\n' ∉ v) ∧
      (∀ vs, e.2 = YamlVal.list vs → ∀ v ∈ vs, '\n' ∉ v) := by
    intro e he
    rw [MarkdownSavePipeline_buildMetadata, hurlpart] at he
    rcases List.mem_append.mp he with he1 | heE
    rcases List.mem_append.mp he1 with he2 | heD
    rcases List.mem_append.mp he2 with he3 | heC
    rcases List.mem_append.mp he3 with heA | heB
    · rw [List.mem_singleton] at heA
      subst heA
      obtain ⟨k1, k2, k3, k4⟩ := metadata_key_facts "url".data (Or.inl rfl)
      refine ⟨k1, k2, k3, k4, ?_, ?_⟩
      · intro v hv
        injection hv with hv
        rw [← hv]
        decide
      · intro vs hvs
        exact YamlVal.noConfusion hvs
    · rcases hti : it.title with _ | t
      · rw [hti] at heB
        simp at heB
      · rw [hti] at heB
        have heB' : e ∈ (if t ≠ [] then [("title".data, YamlVal.s t)] else []) := heB
        by_cases hte : t = []
        · rw [if_neg (fun hh => hh hte)] at heB'
          simp at heB'
        · rw [if_pos hte] at heB'
          rw [List.mem_singleton] at heB'
          subst heB'
          obtain ⟨k1, k2, k3, k4⟩ := metadata_key_facts "title".data (Or.inr (Or.inl rfl))
          refine ⟨k1, k2, k3, k4, ?_, ?_⟩
          · intro v hv
            injection hv with hv
            rw [← hv]
            exact plainScalarOk_no_newline (htitle t hti)
          · intro vs hvs
            exact YamlVal.noConfusion hvs
    · by_cases htg : it.tags = []
      · rw [if_neg (fun hh => hh htg)] at heC
        simp at heC
      · rw [if_pos htg] at heC
        rw [List.mem_singleton] at heC
        subst heC
        obtain ⟨k1, k2, k3, k4⟩ :=
          metadata_key_facts "tags".data (Or.inr (Or.inr (Or.inl rfl)))
        refine ⟨k1, k2, k3, k4, ?_, ?_⟩
        · intro v hv
          exact YamlVal.noConfusion hv
        · intro vs hvs v hv
          injection hvs with hvs
          rw [← hvs] at hv
          exact plainScalarOk_no_newline (htags v hv)
    · rcases hfw2 : it.framework with _ | f
      · rw [hfw2] at heD
        simp at heD
      · rw [hfw2] at heD
        have heD' : e ∈ (if f ≠ [] then [("framework".data, YamlVal.s f)] else []) := heD
        by_cases hfe : f = []
        · rw [if_neg (fun hh => hh hfe)] at heD'
          simp at heD'
        · rw [if_pos hfe] at heD'
          rw [List.mem_singleton] at heD'
          subst heD'
          obtain ⟨k1, k2, k3, k4⟩ :=
            metadata_key_facts "framework".data (Or.inr (Or.inr (Or.inr (Or.inl rfl))))
          refine ⟨k1, k2, k3, k4, ?_, ?_⟩
          · intro v hv
            injection hv with hv
            rw [← hv]
            exact plainScalarOk_no_newline (hfw f hfw2)
          · intro vs hvs
            exact YamlVal.noConfusion hvs
    · rw [List.mem_singleton] at heE
      subst heE
      obtain ⟨k1, k2, k3, k4⟩ :=
        metadata_key_facts "crawl_time".data (Or.inr (Or.inr (Or.inr (Or.inr rfl))))
      refine ⟨k1, k2, k3, k4, ?_, ?_⟩
      · intro v hv
        injection hv with hv
        rw [← hv]
        rcases hct2 : it.crawlTime with _ | ct
        · exact plainScalarOk_no_newline hnow
        · show '\n' ∉ (if ct ≠ [] then ct else now)
          by_cases hce : ct = []
          · rw [if_neg (fun hh => hh hce)]
            exact plainScalarOk_no_newline hnow
          · rw [if_pos hce]
            exact plainScalarOk_no_newline (hct ct hct2)
      · intro vs hvs
        exact YamlVal.noConfusion hvs
  have hcondM : ∀ e ∈ sortByKey (MarkdownSavePipeline_buildMetadata it now),
      e.1 ≠ [] ∧ ':' ∉ e.1 ∧ '\n' ∉ e.1 ∧ e.1.head? ≠ some '-' ∧
      (∀ v, e.2 = YamlVal.s v → '\n' ∉ v) ∧
      (∀ vs, e.2 = YamlVal.list vs → ∀ v ∈ vs, '\n' ∉ v) :=
    fun e he => hmem e (mem_sortByKey he)
  have hmdne : MarkdownSavePipeline_buildMetadata it now ≠ [] := by
    rw [MarkdownSavePipeline_buildMetadata]
    simp
  have hMne := sortByKey_ne_nil hmdne
  have hLne := linesOf_ne_nil hMne
  have hLok := linesOf_ok _ hcondM
  have hparse : CacheMiddleware_parseYamlMetadata
      (MarkdownSavePipeline_buildMarkdown (MarkdownSavePipeline_buildMetadata it now) body) =
      some (sortByKey (MarkdownSavePipeline_buildMetadata it now)) := by
    rw [CacheMiddleware_parseYamlMetadata, MarkdownSavePipeline_buildMarkdown]
    simp only [List.append_assoc]
    have hpre : ("---".data : Chars) <+:
        "---\n".data ++ (yamlDump (MarkdownSavePipeline_buildMetadata it now) ++
          ("---\n\n".data ++ body)) :=
      ⟨'\n' :: (yamlDump (MarkdownSavePipeline_buildMetadata it now) ++
        ("---\n\n".data ++ body)), rfl⟩
    rw [if_pos hpre]
    rw [show ("---\n".data ++ (yamlDump (MarkdownSavePipeline_buildMetadata it now) ++
      ("---\n\n".data ++ body))).drop 4 =
      yamlDump (MarkdownSavePipeline_buildMetadata it now) ++ ("---\n\n".data ++ body)
      from rfl]
    rw [yamlDump_lines, joinLines_eq_inter _ hLne]
    simp only [List.append_assoc, List.singleton_append]
    rw [show ('\n' : Char) :: ("---\n\n".data ++ body) =
      '\n' :: '-' :: '-' :: '-' :: '\n' :: ('\n' :: body) from rfl]
    rw [breakFirstSeq_yaml _ ('\n' :: body) hLok]
    dsimp only
    rw [yamlSafeLoad,
      splitOnChar_interLines _ hLne (fun l hl => (hLok l hl).2.1)]
    rw [yamlLoadLines]
    exact yamlLoadLinesGo_linesOf _ _ (Nat.le_refl _) hcondM
  have hlook : (sortByKey (MarkdownSavePipeline_buildMetadata it now)).lookup "url".data =
      some (YamlVal.s "https://x.io/a/b.html".data) := by
    rw [lookup_sortByKey, MarkdownSavePipeline_buildMetadata, hurlpart]
    simp only [List.singleton_append, List.cons_append]
    rw [lookup_cons, if_pos rfl]
  have hcache : CacheMiddleware_preloadFromOutput
      [(path, MarkdownSavePipeline_buildMarkdown
        (MarkdownSavePipeline_buildMetadata it now) body)] =
      [("https://x.io/a/b.html".data,
        ⟨MarkdownSavePipeline_buildMarkdown (MarkdownSavePipeline_buildMetadata it now) body,
         sortByKey (MarkdownSavePipeline_buildMetadata it now), path⟩)] := by
    rw [CacheMiddleware_preloadFromOutput, List.foldl_cons, List.foldl_nil]
    dsimp only
    rw [hparse]
    dsimp only
    rw [if_pos hMne, hlook]
  rw [hcache]
  exact ⟨_, by rw [lookup_cons, if_pos rfl]⟩

/-- Witness for C7 at a concrete item with `url = "https://x.io/a/b.html"`. -/
theorem c7_front_matter_roundtrip_witness :
    ∃ e, (CacheMiddleware_preloadFromOutput
        [("output/x.io/a/b.md".data, MarkdownSavePipeline_buildMarkdown
          (MarkdownSavePipeline_buildMetadata
            ⟨some "https://x.io/a/b.html".data, some "Guide".data, ["python".data],
             some "mkdocs".data, none⟩ "now20260101".data)
          "# Body".data)]).lookup "https://x.io/a/b.html".data = some e := by
  exact c7_front_matter_roundtrip
    ⟨some "https://x.io/a/b.html".data, some "Guide".data, ["python".data],
     some "mkdocs".data, none⟩ "now20260101".data "# Body".data "output/x.io/a/b.md".data
    rfl
    (fun t ht => by rw [← Option.some.inj ht]; decide)
    (fun t ht => by rw [List.mem_singleton] at ht; rw [ht]; decide)
    (fun f hf => by rw [← Option.some.inj hf]; decide)
    (fun t ht => Option.noConfusion ht)
    (by decide)

/-! ### Claim C5 — idempotence of the two URL-normalization passes -/

/-- Counterexample to C5 as stated: neither pass is idempotent for every
input.  The HTML pass is not idempotent for the (authority-less) base
`a/b`, where `urljoin` itself is not idempotent; and the Markdown pass is
not idempotent even for an absolute base, because a rewritten URL
containing `)`/`](` changes what the regular expressions match on the
second pass. -/
theorem c5_counterexample :
    (UrlNormalizer_convertRelativeUrls [some "c".data] "a/b".data).bind
        (fun a1 => UrlNormalizer_convertRelativeUrls a1 "a/b".data) ≠
      UrlNormalizer_convertRelativeUrls [some "c".data] "a/b".data ∧
    (BlogSpider_convertMarkdownUrls "[a](u](rel)".data "http://e.com/x)/[q/b".data).bind
        (fun c1 => BlogSpider_convertMarkdownUrls c1 "http://e.com/x)/[q/b".data) ≠
      BlogSpider_convertMarkdownUrls "[a](u](rel)".data "http://e.com/x)/[q/b".data := by
  decide

/-! ### String lemmas for the `urljoin` idempotence argument -/

theorem takeWhile_all {p : Char → Bool} : ∀ (l : Chars), (∀ c ∈ l, p c = true) →
    l.takeWhile p = l := by
  intro l
  induction l with
  | nil => intro _; rfl
  | cons c cs ih =>
    intro h
    rw [List.takeWhile_cons, if_pos (h c (List.mem_cons_self c cs)),
      ih (fun x hx => h x (List.mem_cons_of_mem c hx))]

theorem dropWhile_all {p : Char → Bool} : ∀ (l : Chars), (∀ c ∈ l, p c = true) →
    l.dropWhile p = [] := by
  intro l
  induction l with
  | nil => intro _; rfl
  | cons c cs ih =>
    intro h
    rw [List.dropWhile_cons, if_pos (h c (List.mem_cons_self c cs))]
    exact ih (fun x hx => h x (List.mem_cons_of_mem c hx))

theorem takeWhile_boundary {p : Char → Bool} (m w : Chars) (hm : ∀ c ∈ m, p c = true)
    (hw : ∀ c, w.head? = some c → p c = false) :
    (m ++ w).takeWhile p = m ∧ (m ++ w).dropWhile p = w := by
  constructor
  · rw [List.takeWhile_append_of_pos hm]
    rcases w with _ | ⟨c, w'⟩
    · simp
    · rw [List.takeWhile_cons, if_neg (by simp [hw c rfl])]
      simp
  · rw [List.dropWhile_append_of_pos hm]
    rcases w with _ | ⟨c, w'⟩
    · rfl
    · rw [List.dropWhile_cons, if_neg (by simp [hw c rfl])]

theorem takeWhile_append_stop {p : Char → Bool} : ∀ (m : Chars) (a : Char) (w : Chars),
    p a = false → (m ++ a :: w).takeWhile p = m.takeWhile p := by
  intro m a w ha
  induction m with
  | nil =>
    rw [List.nil_append, List.takeWhile_cons, if_neg (by simp [ha])]
    rfl
  | cons c m' ih =>
    rw [List.cons_append, List.takeWhile_cons, List.takeWhile_cons]
    by_cases hc : p c = true
    · rw [if_pos hc, if_pos hc, ih]
    · rw [if_neg hc, if_neg hc]

theorem dropWhile_head_not {p : Char → Bool} : ∀ (l : Chars) (a : Char) (w : Chars),
    l.dropWhile p = a :: w → p a = false := by
  intro l
  induction l with
  | nil => intro a w h; simp at h
  | cons c cs ih =>
    intro a w h
    rw [List.dropWhile_cons] at h
    by_cases hc : p c = true
    · rw [if_pos hc] at h
      exact ih a w h
    · rw [if_neg hc] at h
      injection h with h1 _
      rw [← h1]
      exact Bool.eq_false_iff.mpr hc

theorem beforeLast_append_afterLast (u : Chars) :
    beforeLastSlash u ++ afterLastSlash u = u := by
  rw [beforeLastSlash, afterLastSlash, ← List.reverse_append,
    List.takeWhile_append_dropWhile, List.reverse_reverse]

theorem afterLastSlash_no_slash {s : Chars} (h : '/' ∉ s) : afterLastSlash s = s := by
  rw [afterLastSlash, takeWhile_all]
  · rw [List.reverse_reverse]
  · intro c hc
    simp only [decide_eq_true_eq]
    intro hh
    exact h (hh ▸ List.mem_reverse.mp hc)

theorem afterLastSlash_append_slash (a s : Chars) :
    afterLastSlash (a ++ '/' :: s) = afterLastSlash s := by
  rw [afterLastSlash, afterLastSlash, List.reverse_append, List.reverse_cons,
    List.append_assoc, List.singleton_append,
    takeWhile_append_stop _ _ _ (by simp)]

theorem afterLastSlash_append_noslash (v w : Chars) (h : '/' ∉ w) :
    afterLastSlash (v ++ w) = afterLastSlash v ++ w := by
  have hw : ∀ a ∈ w.reverse, (fun c => decide (c ≠ '/')) a = true := by
    intro a ha
    simp only [decide_eq_true_eq]
    intro hh
    exact h (hh ▸ List.mem_reverse.mp ha)
  rw [afterLastSlash, afterLastSlash, List.reverse_append,
    List.takeWhile_append_of_pos hw, List.reverse_append, List.reverse_reverse]

theorem not_slash_mem_afterLastSlash {u : Chars} : '/' ∉ afterLastSlash u := by
  intro h
  rw [afterLastSlash, List.mem_reverse] at h
  have := List.mem_takeWhile_imp h
  simp at this

theorem exists_lastSlash (u : Chars) (h : '/' ∈ u) :
    ∃ a, u = a ++ '/' :: afterLastSlash u ∧ beforeLastSlash u = a ++ ['/'] := by
  rcases hd : u.reverse.dropWhile (fun c => c ≠ '/') with _ | ⟨c0, w⟩
  · exfalso
    have hrev : u.reverse.takeWhile (fun c => c ≠ '/') = u.reverse := by
      have := List.takeWhile_append_dropWhile (p := fun c => c ≠ '/') (l := u.reverse)
      rw [hd, List.append_nil] at this
      exact this
    have hmem : '/' ∈ u.reverse.takeWhile (fun c => c ≠ '/') := by
      rw [hrev, List.mem_reverse]
      exact h
    have := List.mem_takeWhile_imp hmem
    simp at this
  · have hc0 : c0 = '/' := by
      have := dropWhile_head_not _ _ _ hd
      simp at this
      exact this
    subst hc0
    refine ⟨w.reverse, ?_, ?_⟩
    · conv_lhs => rw [← List.reverse_reverse u,
        ← List.takeWhile_append_dropWhile (p := fun c => c ≠ '/') (l := u.reverse), hd]
      rw [List.reverse_append, List.reverse_cons, List.append_assoc, List.singleton_append]
      rfl
    · rw [beforeLastSlash, hd, List.reverse_cons]

theorem mem_of_mem_splitOnChar {ch : Char} :
    ∀ {l s : Chars}, s ∈ splitOnChar ch l → ∀ c ∈ s, c ∈ l := by
  intro l
  induction l with
  | nil =>
    intro s hs c hc
    simp [splitOnChar] at hs
    subst hs
    simp at hc
  | cons a cs ih =>
    intro s hs c hc
    rw [splitOnChar] at hs
    by_cases ha : a = ch
    · rw [if_pos ha] at hs
      rcases List.mem_cons.mp hs with hs | hs
      · subst hs
        simp at hc
      · exact List.mem_cons_of_mem a (ih hs c hc)
    · rw [if_neg ha] at hs
      rcases hsp : splitOnChar ch cs with _ | ⟨h0, t0⟩
      · exact absurd hsp (splitOnChar_ne_nil ch cs)
      · rw [hsp] at hs
        rcases List.mem_cons.mp hs with hs | hs
        · subst hs
          rcases List.mem_cons.mp hc with hc | hc
          · exact hc ▸ List.mem_cons_self a cs
          · exact List.mem_cons_of_mem a
              (ih (hsp ▸ List.mem_cons_self h0 t0) c hc)
        · exact List.mem_cons_of_mem a (ih (hsp ▸ List.mem_cons_of_mem h0 hs) c hc)

theorem mem_of_mem_resolveSegs {x : Chars} {segs : List Chars}
    (h : x ∈ resolveSegs segs) : x ∈ segs := by
  rw [resolveSegs] at h
  have haux : ∀ (L : List Chars) (acc : List Chars),
      x ∈ L.foldl (fun acc seg =>
        if seg = ['.', '.'] then acc.dropLast
        else if seg = ['.'] then acc
        else acc ++ [seg]) acc → x ∈ acc ∨ x ∈ L := by
    intro L
    induction L with
    | nil => intro acc h; exact Or.inl h
    | cons s t ih =>
      intro acc h
      rw [List.foldl_cons] at h
      rcases ih _ h with h | h
      · split at h
        · exact Or.inl ((List.dropLast_sublist acc).subset h)
        · split at h
          · exact Or.inl h
          · rcases List.mem_append.mp h with h | h
            · exact Or.inl h
            · rw [List.mem_singleton] at h
              exact Or.inr (h ▸ List.mem_cons_self s t)
      · exact Or.inr (List.mem_cons_of_mem s h)
  rcases haux segs [] h with h | h
  · simp at h
  · exact h

theorem mem_of_mem_filterInner {x : Chars} :
    ∀ {l : List Chars}, x ∈ filterInner l → x ∈ l := by
  intro l
  induction l with
  | nil => intro h; simp [filterInner] at h
  | cons a t ih =>
    intro h
    rcases t with _ | ⟨b, t'⟩
    · exact h
    · rw [filterInner] at h
      split at h
      · exact List.mem_cons_of_mem a (ih h)
      · rcases List.mem_cons.mp h with h | h
        · exact h ▸ List.mem_cons_self a _
        · exact List.mem_cons_of_mem a (ih h)

theorem mem_of_mem_keepEnds {x : Chars} {l : List Chars}
    (h : x ∈ keepEndsFilterEmpty l) : x ∈ l := by
  rcases l with _ | ⟨a, t⟩
  · simp [keepEndsFilterEmpty] at h
  · rw [keepEndsFilterEmpty] at h
    rcases List.mem_cons.mp h with h | h
    · exact h ▸ List.mem_cons_self a t
    · exact List.mem_cons_of_mem a (mem_of_mem_filterInner h)

theorem mem_joinSlash {c : Char} :
    ∀ {segs : List Chars}, c ∈ joinSlash segs → c = '/' ∨ ∃ s ∈ segs, c ∈ s := by
  intro segs
  induction segs with
  | nil => intro h; simp [joinSlash] at h
  | cons x t ih =>
    intro h
    rcases t with _ | ⟨y, t'⟩
    · exact Or.inr ⟨x, List.mem_cons_self x [], h⟩
    · rw [joinSlash] at h
      rcases List.mem_append.mp h with h | h
      · exact Or.inr ⟨x, List.mem_cons_self x _, h⟩
      · rcases List.mem_cons.mp h with h | h
        · exact Or.inl h
        · rcases ih h with h | ⟨s, hs, hc⟩
          · exact Or.inl h
          · exact Or.inr ⟨s, List.mem_cons_of_mem x hs, hc⟩

theorem getLast?_splitSlash (u : Chars) :
    (splitSlash u).getLast? = some (afterLastSlash u) := by
  by_cases hs : '/' ∈ u
  · obtain ⟨a, hu, _⟩ := exists_lastSlash u hs
    show (splitOnChar '/' u).getLast? = some (afterLastSlash u)
    conv_lhs => rw [hu]
    rw [splitOnChar_append_cons,
      splitOnChar_no_occ '/' (afterLastSlash u) not_slash_mem_afterLastSlash]
    exact List.getLast?_concat _
  · show (splitOnChar '/' u).getLast? = some (afterLastSlash u)
    rw [splitOnChar_no_occ '/' u hs, afterLastSlash_no_slash hs]
    rfl

theorem filterInner_facts : ∀ (l : List Chars), l ≠ [] →
    filterInner l ≠ [] ∧ (filterInner l).getLast? = l.getLast? := by
  intro l
  induction l with
  | nil => intro h; exact absurd rfl h
  | cons a t ih =>
    intro _
    rcases t with _ | ⟨b, t'⟩
    · exact ⟨by simp [filterInner], rfl⟩
    · obtain ⟨ihne, ihlast⟩ := ih (by simp)
      rw [filterInner]
      split
      · exact ⟨ihne, by rw [ihlast]; rfl⟩
      · refine ⟨by simp, ?_⟩
        rcases hfi : filterInner (b :: t') with _ | ⟨f0, ft⟩
        · exact absurd hfi ihne
        · rw [List.getLast?_cons_cons, ← hfi, ihlast]
          rfl

theorem getLast?_keepEnds (l : List Chars) (h : l ≠ []) :
    (keepEndsFilterEmpty l).getLast? = l.getLast? := by
  rcases l with _ | ⟨a, t⟩
  · exact absurd rfl h
  · rw [keepEndsFilterEmpty]
    rcases t with _ | ⟨b, t'⟩
    · rfl
    · obtain ⟨hne, hlast⟩ := filterInner_facts (b :: t') (by simp)
      rcases hfi : filterInner (b :: t') with _ | ⟨f0, ft⟩
      · exact absurd hfi hne
      · rw [List.getLast?_cons_cons, ← hfi, hlast]
        rfl

theorem eq_append_of_getLast? : ∀ (l : List Chars) (z : Chars),
    l.getLast? = some z → ∃ init, l = init ++ [z] := by
  intro l
  induction l with
  | nil => intro z h; simp at h
  | cons a t ih =>
    intro z h
    rcases t with _ | ⟨b, t'⟩
    · refine ⟨[], ?_⟩
      have : a = z := by
        simp [List.getLast?] at h
        exact h
      rw [this]
      rfl
    · rw [List.getLast?_cons_cons] at h
      obtain ⟨init, hinit⟩ := ih z h
      exact ⟨a :: init, by rw [List.cons_append, ← hinit]⟩

theorem resolveSegs_concat (init : List Chars) (z : Chars)
    (h1 : z ≠ ['.', '.']) (h2 : z ≠ ['.']) :
    resolveSegs (init ++ [z]) = resolveSegs init ++ [z] := by
  rw [resolveSegs, resolveSegs, List.foldl_append, List.foldl_cons, List.foldl_nil]
  rw [if_neg h1, if_neg h2]

theorem afterLastSlash_joinSlash : ∀ (segs : List Chars) (z : Chars), '/' ∉ z →
    afterLastSlash (joinSlash (segs ++ [z])) = z := by
  intro segs
  induction segs with
  | nil => intro z hz; exact afterLastSlash_no_slash hz
  | cons s t ih =>
    intro z hz
    rcases t with _ | ⟨t0, ts⟩
    · rw [show joinSlash ([s] ++ [z]) = s ++ '/' :: z from rfl,
        afterLastSlash_append_slash, afterLastSlash_no_slash hz]
    · rw [show joinSlash ((s :: t0 :: ts) ++ [z]) =
        s ++ '/' :: joinSlash ((t0 :: ts) ++ [z]) from rfl, afterLastSlash_append_slash]
      exact ih z hz

theorem mem_removeUnsafe {c : Char} {l : Chars} (h : c ∈ removeUnsafe l) :
    ¬ (c = '\t' ∨ c = '\r' ∨ c = '\n') := by
  rw [removeUnsafe] at h
  have hp := List.of_mem_filter h
  simpa using hp

theorem splitOnFirst_fst_subset (ch : Char) (l : Chars) :
    ∀ c ∈ (splitOnFirst ch l).1, c ∈ l :=
  fun _ hc => (List.takeWhile_sublist _).subset hc

theorem splitOnFirst_fst_free (ch : Char) (l : Chars) : ch ∉ (splitOnFirst ch l).1 := by
  intro h
  have h' : ch ∈ l.takeWhile (fun c => c ≠ ch) := h
  have := List.mem_takeWhile_imp h'
  simp at this

theorem splitOnFirst_snd_subset (ch : Char) (l : Chars) :
    ∀ c ∈ (splitOnFirst ch l).2, c ∈ l :=
  fun _ hc => (List.dropWhile_sublist _).subset (List.drop_subset _ _ hc)

theorem splitOnFirst_recompose (ch : Char) (l : Chars) (h : ch ∈ l) :
    (splitOnFirst ch l).1 ++ ch :: (splitOnFirst ch l).2 = l := by
  rcases hd : l.dropWhile (fun c => c ≠ ch) with _ | ⟨c0, w⟩
  · exfalso
    have hrev : l.takeWhile (fun c => c ≠ ch) = l := by
      have := List.takeWhile_append_dropWhile (p := fun c => c ≠ ch) (l := l)
      rw [hd, List.append_nil] at this
      exact this
    have h' : ch ∈ l.takeWhile (fun c => c ≠ ch) := by rw [hrev]; exact h
    have := List.mem_takeWhile_imp h'
    simp at this
  · have hc0 : c0 = ch := by
      have := dropWhile_head_not _ _ _ hd
      simp at this
      exact this
    rw [hc0] at hd
    show l.takeWhile (fun c => c ≠ ch) ++ ch :: (l.dropWhile (fun c => c ≠ ch)).drop 1 = l
    rw [hd]
    conv_rhs => rw [← List.takeWhile_append_dropWhile (p := fun c => c ≠ ch) (l := l), hd]
    rfl

theorem schemeSplit_snd_subset (l : Chars) : ∀ c ∈ (schemeSplit l).2, c ∈ l := by
  intro c hc
  rw [schemeSplit] at hc
  split at hc
  · rename_i rest heq
    dsimp only at hc
    rw [apply_ite Prod.snd] at hc
    split at hc
    · have h2 : c ∈ ':' :: rest := List.mem_cons_of_mem ':' hc
      rw [← heq] at h2
      exact (List.dropWhile_sublist _).subset h2
    · exact hc
  · exact hc

theorem splitNetloc_fst_subset (r : Chars) : ∀ c ∈ (splitNetloc r).1, c ∈ r := by
  intro c hc
  rw [splitNetloc] at hc
  split at hc
  · exact List.drop_subset 2 r ((List.takeWhile_sublist _).subset hc)
  · simp at hc

theorem splitNetloc_snd_subset (r : Chars) : ∀ c ∈ (splitNetloc r).2, c ∈ r := by
  intro c hc
  rw [splitNetloc] at hc
  split at hc
  · exact List.drop_subset 2 r ((List.dropWhile_sublist _).subset hc)
  · exact hc

theorem urlsplitQ_parts {u ds : Chars} {sp : SplitParts} (h : urlsplitQ u ds = some sp) :
    sp.netloc = (splitNetloc (schemeSplit (removeUnsafe (lstripC0 u))).2).1 ∧
    sp.path = (splitOnFirst '?' (splitOnFirst '#'
      (splitNetloc (schemeSplit (removeUnsafe (lstripC0 u))).2).2).1).1 ∧
    sp.query = (splitOnFirst '?' (splitOnFirst '#'
      (splitNetloc (schemeSplit (removeUnsafe (lstripC0 u))).2).2).1).2 ∧
    sp.fragment = (splitOnFirst '#'
      (splitNetloc (schemeSplit (removeUnsafe (lstripC0 u))).2).2).2 := by
  have he := (urlsplitQ_eq_some h).1
  subst he
  exact ⟨rfl, rfl, rfl, rfl⟩

theorem urlsplitQ_parts_clean {u ds : Chars} {sp : SplitParts}
    (h : urlsplitQ u ds = some sp) :
    (∀ c ∈ sp.netloc, ¬ (c = '\t' ∨ c = '\r' ∨ c = '\n')) ∧
    (∀ c ∈ sp.path, c ≠ '#' ∧ c ≠ '?' ∧ ¬ (c = '\t' ∨ c = '\r' ∨ c = '\n')) ∧
    (∀ c ∈ sp.query, c ≠ '#' ∧ ¬ (c = '\t' ∨ c = '\r' ∨ c = '\n')) ∧
    (∀ c ∈ sp.fragment, ¬ (c = '\t' ∨ c = '\r' ∨ c = '\n')) := by
  obtain ⟨hn, hp, hq, hf⟩ := urlsplitQ_parts h
  have hsub : ∀ c ∈ (splitNetloc (schemeSplit (removeUnsafe (lstripC0 u))).2).2,
      c ∈ removeUnsafe (lstripC0 u) :=
    fun c hc => schemeSplit_snd_subset _ c (splitNetloc_snd_subset _ c hc)
  refine ⟨?_, ?_, ?_, ?_⟩
  · intro c hc
    rw [hn] at hc
    exact mem_removeUnsafe
      (schemeSplit_snd_subset _ c (splitNetloc_fst_subset _ c hc))
  · intro c hc
    rw [hp] at hc
    have h1 : c ∈ (splitOnFirst '#'
        (splitNetloc (schemeSplit (removeUnsafe (lstripC0 u))).2).2).1 :=
      splitOnFirst_fst_subset '?' _ c hc
    refine ⟨?_, ?_, ?_⟩
    · intro hh
      exact splitOnFirst_fst_free '#' _ (hh ▸ h1)
    · intro hh
      exact splitOnFirst_fst_free '?' _ (hh ▸ hc)
    · exact mem_removeUnsafe (hsub c (splitOnFirst_fst_subset '#' _ c h1))
  · intro c hc
    rw [hq] at hc
    have h1 : c ∈ (splitOnFirst '#'
        (splitNetloc (schemeSplit (removeUnsafe (lstripC0 u))).2).2).1 :=
      splitOnFirst_snd_subset '?' _ c hc
    refine ⟨?_, ?_⟩
    · intro hh
      exact splitOnFirst_fst_free '#' _ (hh ▸ h1)
    · exact mem_removeUnsafe (hsub c (splitOnFirst_fst_subset '#' _ c h1))
  · intro c hc
    rw [hf] at hc
    exact mem_removeUnsafe (hsub c (splitOnFirst_snd_subset '#' _ c hc))

theorem splitparams_facts (u : Chars) :
    (∀ c ∈ (splitparamsFn u).1, c ∈ u) ∧
    (∀ c ∈ (splitparamsFn u).2, c ∈ afterLastSlash u ∧ c ≠ '/') ∧
    ';' ∉ afterLastSlash (splitparamsFn u).1 := by
  rw [splitparamsFn]
  by_cases hslash : '/' ∈ u
  · rw [if_pos hslash]
    obtain ⟨a, hu, hb⟩ := exists_lastSlash u hslash
    by_cases hsemi : ';' ∈ afterLastSlash u
    · rw [if_pos hsemi]
      dsimp only
      refine ⟨?_, ?_, ?_⟩
      · intro c hc
        rcases List.mem_append.mp hc with hc | hc
        · rw [← beforeLast_append_afterLast u]
          exact List.mem_append_left _ hc
        · rw [← beforeLast_append_afterLast u]
          exact List.mem_append_right _ (splitOnFirst_fst_subset ';' _ c hc)
      · intro c hc
        have h1 := splitOnFirst_snd_subset ';' _ c hc
        exact ⟨h1, fun hh => not_slash_mem_afterLastSlash (hh ▸ h1)⟩
      · have hs1 : ∀ c ∈ (splitOnFirst ';' (afterLastSlash u)).1, c ≠ '/' :=
          fun c hc hh => not_slash_mem_afterLastSlash
            (hh ▸ splitOnFirst_fst_subset ';' _ c hc)
        rw [hb, List.append_assoc, List.singleton_append, afterLastSlash_append_slash,
          afterLastSlash_no_slash (fun hh => hs1 '/' hh rfl)]
        exact splitOnFirst_fst_free ';' _
    · rw [if_neg hsemi]
      exact ⟨fun c hc => hc, fun c hc => absurd hc (by simp), hsemi⟩
  · rw [if_neg hslash]
    have hall : afterLastSlash u = u := afterLastSlash_no_slash hslash
    by_cases hsemi : ';' ∈ u
    · rw [if_pos hsemi]
      refine ⟨?_, ?_, ?_⟩
      · exact splitOnFirst_fst_subset ';' u
      · intro c hc
        have h1 := splitOnFirst_snd_subset ';' u c hc
        refine ⟨by rw [hall]; exact h1, fun hh => hslash (hh ▸ h1)⟩
      · have hs1 : '/' ∉ (splitOnFirst ';' u).1 :=
          fun hh => hslash (splitOnFirst_fst_subset ';' u '/' hh)
        rw [afterLastSlash_no_slash hs1]
        exact splitOnFirst_fst_free ';' u
    · rw [if_neg hsemi]
      refine ⟨fun c hc => hc, fun c hc => absurd hc (by simp), ?_⟩
      rw [hall]
      exact hsemi

theorem splitparams_join (u : Chars)
    (hu : ';' ∈ afterLastSlash u → (splitOnFirst ';' (afterLastSlash u)).2 ≠ []) :
    (if (splitparamsFn u).2 ≠ [] then
      (splitparamsFn u).1 ++ ';' :: (splitparamsFn u).2
     else (splitparamsFn u).1) = u := by
  rw [splitparamsFn]
  by_cases hslash : '/' ∈ u
  · rw [if_pos hslash]
    by_cases hsemi : ';' ∈ afterLastSlash u
    · rw [if_pos hsemi]
      dsimp only
      rw [if_pos (hu hsemi), List.append_assoc, splitOnFirst_recompose ';' _ hsemi]
      exact beforeLast_append_afterLast u
    · rw [if_neg hsemi]
      rw [if_neg (by simp)]
  · rw [if_neg hslash]
    by_cases hsemi : ';' ∈ u
    · rw [if_pos hsemi]
      have hall : afterLastSlash u = u := afterLastSlash_no_slash hslash
      rw [if_pos (by rw [← hall] at hsemi ⊢; exact hu hsemi)]
      exact splitOnFirst_recompose ';' u hsemi
    · rw [if_neg hsemi]
      rw [if_neg (by simp)]

theorem urlparseCore_query (sp : SplitParts) : (urlparseCore sp).query = sp.query := by
  rw [urlparseCore]
  split <;> rfl

theorem urlparseCore_fragment (sp : SplitParts) :
    (urlparseCore sp).fragment = sp.fragment := by
  rw [urlparseCore]
  split <;> rfl

theorem urlparseCore_path_subset (sp : SplitParts) :
    ∀ c ∈ (urlparseCore sp).path, c ∈ sp.path := by
  rw [urlparseCore]
  split
  · dsimp only
    exact (splitparams_facts sp.path).1
  · intro c hc
    exact hc

theorem urlparseCore_params_facts (sp : SplitParts) :
    ∀ c ∈ (urlparseCore sp).params, c ∈ sp.path ∧ c ≠ '/' := by
  rw [urlparseCore]
  split
  · dsimp only
    intro c hc
    have h2 := (splitparams_facts sp.path).2.1 c hc
    refine ⟨?_, h2.2⟩
    rw [← beforeLast_append_afterLast sp.path]
    exact List.mem_append_right _ h2.1
  · intro c hc
    simp at hc

theorem urlparseCore_lastSeg (sp : SplitParts) (h : sp.scheme ∈ usesParams) :
    ';' ∉ afterLastSlash (urlparseCore sp).path := by
  rw [urlparseCore]
  split
  · dsimp only
    exact (splitparams_facts sp.path).2.2
  · dsimp only
    rename_i hcond
    push_neg at hcond
    intro hmem
    exact hcond h (by
      rw [← beforeLast_append_afterLast sp.path]
      exact List.mem_append_right _ hmem)

theorem urlparseQ_elim {u ds : Chars} {p : ParseParts} (h : urlparseQ u ds = some p) :
    ∃ sp, urlsplitQ u ds = some sp ∧ p = urlparseCore sp := by
  rw [urlparseQ] at h
  rcases hsp : urlsplitQ u ds with _ | sp
  · rw [hsp] at h
    simp at h
  · rw [hsp] at h
    simp only [Option.map_some', Option.some.injEq] at h
    exact ⟨sp, rfl, h.symm⟩

theorem usesRelative_facts (s : Chars) (h : s ∈ usesRelative) :
    (s = [] ∨ (validSchemeText s = true ∧ (∀ c ∈ s, c ≠ ':'))) ∧
    lowerChars s = s ∧ removeUnsafe (stripC0 s) = s ∧ removeUnsafe s = s ∧
    s ∈ usesNetloc ∧ (∀ c ∈ s.take 1, isC0OrSpace c = false) := by
  simp only [usesRelative, List.mem_cons, List.not_mem_nil, or_false] at h
  rcases h with rfl | rfl | rfl | rfl | rfl | rfl | rfl | rfl | rfl | rfl | rfl | rfl |
    rfl | rfl | rfl | rfl | rfl | rfl | rfl <;> decide

theorem schemeSplit_headSlash (l : Chars) (h : l.head? = some '/') :
    schemeSplit l = ([], l) := by
  rcases l with _ | ⟨c, l'⟩
  · simp at h
  · rw [List.head?_cons, Option.some.injEq] at h
    subst h
    rw [schemeSplit]
    split
    · have hpre : ('/' :: l').takeWhile (fun c => c ≠ ':') =
          '/' :: l'.takeWhile (fun c => c ≠ ':') := by
        rw [List.takeWhile_cons, if_pos (by simp)]
      dsimp only
      rw [hpre, if_neg (by intro hcon; simpa [validSchemeText] using hcon.2)]
    · rfl

theorem urlunsplit_shape (s n u3 q f : Chars) (hn : n ≠ []) :
    urlunsplit s n u3 q f =
      (if s ≠ [] then s ++ [':'] else []) ++
        ('/' :: '/' :: (n ++
          ((if u3 ≠ [] ∧ u3.head? ≠ some '/' then '/' :: u3 else u3) ++
            ((if q ≠ [] then '?' :: q else []) ++
              (if f ≠ [] then '#' :: f else []))))) := by
  rw [urlunsplit]
  rw [if_pos (Or.inl hn)]
  by_cases hs : s = [] <;> by_cases hq : q = [] <;> by_cases hf : f = [] <;>
    simp [hs, hq, hf, List.append_assoc]

theorem urlunsplit_ne_nil (s n u3 q f : Chars) (hn : n ≠ []) :
    urlunsplit s n u3 q f ≠ [] := by
  rw [urlunsplit_shape s n u3 q f hn]
  by_cases hs : s = [] <;> simp [hs]

theorem urlunsplit_fix (s n u3 q f : Chars) (hn : n ≠ []) :
    urlunsplit s n (if u3 ≠ [] ∧ u3.head? ≠ some '/' then '/' :: u3 else u3) q f =
      urlunsplit s n u3 q f := by
  by_cases hc : u3 ≠ [] ∧ u3.head? ≠ some '/'
  · rw [if_pos hc, urlunsplit_shape _ _ _ _ _ hn, urlunsplit_shape _ _ _ _ _ hn]
    rw [if_neg (show ¬ (('/' :: u3) ≠ [] ∧ ('/' :: u3).head? ≠ some '/') by simp),
      if_pos hc]
  · rw [if_neg hc]

theorem urlunsplit_resplit (s n u3 q f ds : Chars)
    (hsv : s = [] ∨ (validSchemeText s = true ∧ (∀ c ∈ s, c ≠ ':')))
    (hsl : lowerChars s = s)
    (hds : removeUnsafe (stripC0 ds) = s)
    (hsu : removeUnsafe s = s)
    (hshead : ∀ c ∈ s.take 1, isC0OrSpace c = false)
    (hn : n ≠ []) (hnd : ∀ c ∈ n, notDelim c = true)
    (hnu : ∀ c ∈ n, ¬ (c = '\t' ∨ c = '\r' ∨ c = '\n'))
    (hbb : bracketBad n = false) (hbh : bracketedHostBad n = false)
    (hu3 : ∀ c ∈ u3, c ≠ '#' ∧ c ≠ '?' ∧ ¬ (c = '\t' ∨ c = '\r' ∨ c = '\n'))
    (hqc : ∀ c ∈ q, c ≠ '#' ∧ ¬ (c = '\t' ∨ c = '\r' ∨ c = '\n'))
    (hfc : ∀ c ∈ f, ¬ (c = '\t' ∨ c = '\r' ∨ c = '\n')) :
    urlsplitQ (urlunsplit s n u3 q f) ds =
      some ⟨s, n, if u3 ≠ [] ∧ u3.head? ≠ some '/' then '/' :: u3 else u3, q, f⟩ := by
  have hfixmem : ∀ c ∈ (if u3 ≠ [] ∧ u3.head? ≠ some '/' then '/' :: u3 else u3),
      c ≠ '#' ∧ c ≠ '?' ∧ ¬ (c = '\t' ∨ c = '\r' ∨ c = '\n') := by
    split
    · intro c hc
      rcases List.mem_cons.mp hc with hc | hc
      · subst hc
        exact ⟨by decide, by decide, by decide⟩
      · exact hu3 c hc
    · exact hu3
  have hfixhead : (if u3 ≠ [] ∧ u3.head? ≠ some '/' then '/' :: u3 else u3) = [] ∨
      (if u3 ≠ [] ∧ u3.head? ≠ some '/' then '/' :: u3 else u3).head? = some '/' := by
    split
    · exact Or.inr rfl
    · rename_i hcond
      push_neg at hcond
      by_cases h0 : u3 = []
      · exact Or.inl h0
      · exact Or.inr (hcond h0)
  have hQfact : ((if q ≠ [] then '?' :: q else []) = [] ∧ q = []) ∨
      (if q ≠ [] then '?' :: q else []) = '?' :: q := by
    by_cases h : q = [] <;> simp [h]
  have hFfact : ((if f ≠ [] then '#' :: f else []) = [] ∧ f = []) ∨
      (if f ≠ [] then '#' :: f else []) = '#' :: f := by
    by_cases h : f = [] <;> simp [h]
  rw [urlunsplit_shape s n u3 q f hn]
  obtain ⟨u', hgen⟩ : ∃ u',
      (if u3 ≠ [] ∧ u3.head? ≠ some '/' then '/' :: u3 else u3) = u' := ⟨_, rfl⟩
  rw [hgen] at hfixmem hfixhead ⊢
  obtain ⟨Q, hQg⟩ : ∃ Q, (if q ≠ [] then '?' :: q else []) = Q := ⟨_, rfl⟩
  rw [hQg] at hQfact ⊢
  obtain ⟨F, hFg⟩ : ∃ F, (if f ≠ [] then '#' :: f else []) = F := ⟨_, rfl⟩
  rw [hFg] at hFfact ⊢
  have hnc1 : ∀ c ∈ u' ++ Q, c ≠ '#' := by
    intro c hc
    rcases List.mem_append.mp hc with hc | hc
    · exact (hfixmem c hc).1
    · rcases hQfact with ⟨hQ0, _⟩ | hQ0
      · rw [hQ0] at hc
        simp at hc
      · rw [hQ0] at hc
        rcases List.mem_cons.mp hc with hc | hc
        · subst hc
          decide
        · exact (hqc c hc).1
  have hfr : splitOnFirst '#' (u' ++ (Q ++ F)) = (u' ++ Q, f) := by
    rcases hFfact with ⟨hF0, hf0⟩ | hF0
    · rw [hF0, hf0, List.append_nil]
      rw [splitOnFirst,
        takeWhile_all _ (fun c hc => by simpa using hnc1 c hc),
        dropWhile_all _ (fun c hc => by simpa using hnc1 c hc)]
      rfl
    · rw [hF0, ← List.append_assoc]
      rw [splitOnFirst, takeWhile_ne_append '#' (u' ++ Q) f hnc1,
        dropWhile_ne_append '#' (u' ++ Q) f hnc1]
      rfl
  have hnc2 : ∀ c ∈ u', c ≠ '?' := fun c hc => (hfixmem c hc).2.1
  have hqr : splitOnFirst '?' (u' ++ Q) = (u', q) := by
    rcases hQfact with ⟨hQ0, hq0⟩ | hQ0
    · rw [hQ0, hq0, List.append_nil]
      rw [splitOnFirst,
        takeWhile_all _ (fun c hc => by simpa using hnc2 c hc),
        dropWhile_all _ (fun c hc => by simpa using hnc2 c hc)]
      rfl
    · rw [hQ0]
      rw [splitOnFirst, takeWhile_ne_append '?' u' q hnc2,
        dropWhile_ne_append '?' u' q hnc2]
      rfl
  have hw : ∀ c, (u' ++ (Q ++ F)).head? = some c → notDelim c = false := by
    intro c hcH
    rcases hfixhead with h0 | h0
    · rw [h0, List.nil_append] at hcH
      rcases hQfact with ⟨hQ0, _⟩ | hQ0
      · rw [hQ0, List.nil_append] at hcH
        rcases hFfact with ⟨hF0, _⟩ | hF0
        · rw [hF0] at hcH
          exact Option.noConfusion hcH
        · rw [hF0, List.head?_cons, Option.some.injEq] at hcH
          rw [← hcH]
          decide
      · rw [hQ0, List.cons_append, List.head?_cons, Option.some.injEq] at hcH
        rw [← hcH]
        decide
    · rcases u' with _ | ⟨c1, u''⟩
      · simp at h0
      · rw [List.head?_cons, Option.some.injEq] at h0
        rw [List.cons_append, List.head?_cons, Option.some.injEq] at hcH
        rw [← hcH, h0]
        decide
  have hnl : splitNetloc ('/' :: '/' :: (n ++ (u' ++ (Q ++ F)))) =
      (n, u' ++ (Q ++ F)) := by
    rw [splitNetloc, if_pos (show List.take 2 ('/' :: '/' :: (n ++ (u' ++ (Q ++ F)))) =
      ['/', '/'] from rfl)]
    obtain ⟨ht, hd⟩ := takeWhile_boundary n (u' ++ (Q ++ F)) hnd hw
    rw [show ('/' :: '/' :: (n ++ (u' ++ (Q ++ F)))).drop 2 = n ++ (u' ++ (Q ++ F))
      from rfl, ht, hd]
  have hlstrip : lstripC0 ((if s ≠ [] then s ++ [':'] else []) ++
      ('/' :: '/' :: (n ++ (u' ++ (Q ++ F))))) =
      (if s ≠ [] then s ++ [':'] else []) ++ ('/' :: '/' :: (n ++ (u' ++ (Q ++ F)))) := by
    by_cases hs : s = []
    · rw [if_neg (by simpa using hs), List.nil_append]
      exact lstripC0_cons '/' _ (by decide)
    · rcases s with _ | ⟨c0, s'⟩
      · exact absurd rfl hs
      · rw [if_pos (by simp), List.cons_append, List.cons_append]
        exact lstripC0_cons c0 _ (hshead c0 (by simp))
  have hunsafe : removeUnsafe ((if s ≠ [] then s ++ [':'] else []) ++
      ('/' :: '/' :: (n ++ (u' ++ (Q ++ F))))) =
      (if s ≠ [] then s ++ [':'] else []) ++ ('/' :: '/' :: (n ++ (u' ++ (Q ++ F)))) := by
    rw [removeUnsafe]
    refine List.filter_eq_self.mpr ?_
    intro c hc
    refine decide_eq_true ?_
    rcases List.mem_append.mp hc with hc | hc
    · split at hc
      · rcases List.mem_append.mp hc with hc | hc
        · rw [← hsu] at hc
          exact mem_removeUnsafe hc
        · rw [List.mem_singleton] at hc
          subst hc
          decide
      · simp at hc
    · rcases List.mem_cons.mp hc with hc | hc
      · subst hc
        decide
      · rcases List.mem_cons.mp hc with hc | hc
        · subst hc
          decide
        · rcases List.mem_append.mp hc with hc | hc
          · exact hnu c hc
          · rcases List.mem_append.mp hc with hc | hc
            · exact (hfixmem c hc).2.2
            · rcases List.mem_append.mp hc with hc | hc
              · rcases hQfact with ⟨hQ0, _⟩ | hQ0
                · rw [hQ0] at hc
                  simp at hc
                · rw [hQ0] at hc
                  rcases List.mem_cons.mp hc with hc | hc
                  · subst hc
                    decide
                  · exact (hqc c hc).2
              · rcases hFfact with ⟨hF0, _⟩ | hF0
                · rw [hF0] at hc
                  simp at hc
                · rw [hF0] at hc
                  rcases List.mem_cons.mp hc with hc | hc
                  · subst hc
                    decide
                  · exact hfc c hc
  have hcore : urlsplitCore ((if s ≠ [] then s ++ [':'] else []) ++
      ('/' :: '/' :: (n ++ (u' ++ (Q ++ F))))) s = ⟨s, n, u', q, f⟩ := by
    have hss : schemeSplit ((if s ≠ [] then s ++ [':'] else []) ++
        ('/' :: '/' :: (n ++ (u' ++ (Q ++ F))))) =
        (s, '/' :: '/' :: (n ++ (u' ++ (Q ++ F)))) := by
      by_cases hs : s = []
      · rw [if_neg (by simpa using hs), List.nil_append,
          schemeSplit_headSlash ('/' :: '/' :: (n ++ (u' ++ (Q ++ F)))) rfl, hs]
      · rcases hsv with hsv0 | ⟨hv, hnc⟩
        · exact absurd hsv0 hs
        · rw [if_pos (by simpa using hs), List.append_assoc, List.singleton_append,
            schemeSplit_pre s _ hs hnc hv, hsl]
    rw [urlsplitCore]
    rw [hss]
    dsimp only
    rw [ite_self, hnl]
    dsimp only
    rw [hfr, hqr]
  rw [urlsplitQ]
  rw [hlstrip, hunsafe, hds, hcore]
  rw [if_neg (by simp [hbb, hbh])]

theorem params_join_seg (sch path ps : Chars)
    (hA : sch ∈ usesParams → ';' ∉ afterLastSlash path) (hP : '/' ∉ ps) :
    sch ∈ usesParams →
    ';' ∈ afterLastSlash (if ps ≠ [] then path ++ ';' :: ps else path) →
    (splitOnFirst ';'
      (afterLastSlash (if ps ≠ [] then path ++ ';' :: ps else path))).2 ≠ [] := by
  intro hsch
  by_cases hp : ps = []
  · rw [if_neg (by simpa using hp)]
    intro hmem
    exact absurd hmem (hA hsch)
  · rw [if_pos (by simpa using hp)]
    have hns : '/' ∉ (';' :: ps : Chars) := by
      intro hmem
      rcases List.mem_cons.mp hmem with hmem | hmem
      · exact absurd hmem (by decide)
      · exact hP hmem
    rw [afterLastSlash_append_noslash path (';' :: ps) hns]
    intro _
    have hAll : ∀ c ∈ afterLastSlash path, c ≠ ';' :=
      fun c hc hh => (hA hsch) (hh ▸ hc)
    rw [splitOnFirst, dropWhile_ne_append ';' _ ps hAll]
    exact fun hcon => hp hcon

theorem urlparseCore_rejoin (sp : SplitParts)
    (hu : sp.scheme ∈ usesParams → ';' ∈ afterLastSlash sp.path →
      (splitOnFirst ';' (afterLastSlash sp.path)).2 ≠ []) :
    (if (urlparseCore sp).params ≠ [] then
      (urlparseCore sp).path ++ ';' :: (urlparseCore sp).params
     else (urlparseCore sp).path) = sp.path := by
  by_cases hc : sp.scheme ∈ usesParams ∧ ';' ∈ sp.path
  · rw [urlparseCore, if_pos hc]
    dsimp only
    exact splitparams_join sp.path (hu hc.1)
  · rw [urlparseCore, if_neg hc]
    dsimp only
    rw [if_neg (by simp)]

theorem urlparseQ_clean {u ds : Chars} {p : ParseParts} (h : urlparseQ u ds = some p) :
    (∀ c ∈ p.netloc, ¬ (c = '\t' ∨ c = '\r' ∨ c = '\n')) ∧
    (∀ c ∈ p.path, c ≠ '#' ∧ c ≠ '?' ∧ ¬ (c = '\t' ∨ c = '\r' ∨ c = '\n')) ∧
    (∀ c ∈ p.params,
      (c ≠ '#' ∧ c ≠ '?' ∧ ¬ (c = '\t' ∨ c = '\r' ∨ c = '\n')) ∧ c ≠ '/') ∧
    (∀ c ∈ p.query, c ≠ '#' ∧ ¬ (c = '\t' ∨ c = '\r' ∨ c = '\n')) ∧
    (∀ c ∈ p.fragment, ¬ (c = '\t' ∨ c = '\r' ∨ c = '\n')) := by
  obtain ⟨sp, hsp, hpe⟩ := urlparseQ_elim h
  obtain ⟨hcn, hcp, hcq, hcf⟩ := urlsplitQ_parts_clean hsp
  subst hpe
  refine ⟨?_, ?_, ?_, ?_, ?_⟩
  · rw [urlparseCore_netloc]
    exact hcn
  · intro c hc
    exact hcp c (urlparseCore_path_subset sp c hc)
  · intro c hc
    obtain ⟨hmem, hslash⟩ := urlparseCore_params_facts sp c hc
    exact ⟨hcp c hmem, hslash⟩
  · rw [urlparseCore_query]
    exact hcq
  · rw [urlparseCore_fragment]
    exact hcf

theorem urlparseQ_netloc_brackets {u ds : Chars} {p : ParseParts}
    (h : urlparseQ u ds = some p) :
    bracketBad p.netloc = false ∧ bracketedHostBad p.netloc = false := by
  obtain ⟨sp, hsp, hpe⟩ := urlparseQ_elim h
  obtain ⟨_, hb1, hb2⟩ := urlsplitQ_eq_some hsp
  subst hpe
  rw [urlparseCore_netloc]
  exact ⟨hb1, hb2⟩

theorem urlparseQ_lastSeg {u ds : Chars} {p : ParseParts} (h : urlparseQ u ds = some p)
    (hs : p.scheme ∈ usesParams) : ';' ∉ afterLastSlash p.path := by
  obtain ⟨sp, hsp, hpe⟩ := urlparseQ_elim h
  subst hpe
  rw [urlparseCore_scheme] at hs
  exact urlparseCore_lastSeg sp hs

theorem join_params_clean (path ps : Chars)
    (hp : ∀ c ∈ path, c ≠ '#' ∧ c ≠ '?' ∧ ¬ (c = '\t' ∨ c = '\r' ∨ c = '\n'))
    (hq : ∀ c ∈ ps, c ≠ '#' ∧ c ≠ '?' ∧ ¬ (c = '\t' ∨ c = '\r' ∨ c = '\n')) :
    ∀ c ∈ (if ps ≠ [] then path ++ ';' :: ps else path),
      c ≠ '#' ∧ c ≠ '?' ∧ ¬ (c = '\t' ∨ c = '\r' ∨ c = '\n') := by
  split
  · intro c hc
    rcases List.mem_append.mp hc with hc | hc
    · exact hp c hc
    · rcases List.mem_cons.mp hc with hc | hc
      · subst hc
        exact ⟨by decide, by decide, by decide⟩
      · exact hq c hc
  · exact hp

theorem mem_segs_chars {x bp pp : Chars}
    (hx : x ∈ (if pp.head? = some '/' then splitSlash pp
      else keepEndsFilterEmpty ((if (splitSlash bp).getLast? ≠ some [] then
        (splitSlash bp).dropLast else splitSlash bp) ++ splitSlash pp))) :
    ∀ c ∈ x, c ∈ bp ∨ c ∈ pp := by
  intro c hc
  split at hx
  · exact Or.inr (mem_of_mem_splitOnChar hx c hc)
  · have hx2 := mem_of_mem_keepEnds hx
    rcases List.mem_append.mp hx2 with hx2 | hx2
    · split at hx2
      · exact Or.inl (mem_of_mem_splitOnChar ((List.dropLast_sublist _).subset hx2) c hc)
      · exact Or.inl (mem_of_mem_splitOnChar hx2 c hc)
    · exact Or.inr (mem_of_mem_splitOnChar hx2 c hc)

theorem afterLast_resolve (segments : List Chars) (z : Chars)
    (hlast : segments.getLast? = some z) (h1 : z ≠ ['.', '.']) (h2 : z ≠ ['.'])
    (hz : '/' ∉ z) :
    afterLastSlash (joinSlash (resolveSegs segments)) = z := by
  obtain ⟨init, hinit⟩ := eq_append_of_getLast? segments z hlast
  rw [hinit, resolveSegs_concat init z h1 h2]
  exact afterLastSlash_joinSlash (resolveSegs init) z hz

theorem urljoin_unsplit (base s n u3 q f : Chars) (b : ParseParts)
    (hbne : base ≠ [])
    (hb : urlparseQ base [] = some b)
    (hbs : b.scheme = s)
    (hsrel : s ∈ usesRelative)
    (hn : n ≠ []) (hnd : ∀ c ∈ n, notDelim c = true)
    (hnu : ∀ c ∈ n, ¬ (c = '\t' ∨ c = '\r' ∨ c = '\n'))
    (hbb : bracketBad n = false) (hbh : bracketedHostBad n = false)
    (hu3 : ∀ c ∈ u3, c ≠ '#' ∧ c ≠ '?' ∧ ¬ (c = '\t' ∨ c = '\r' ∨ c = '\n'))
    (hqc : ∀ c ∈ q, c ≠ '#' ∧ ¬ (c = '\t' ∨ c = '\r' ∨ c = '\n'))
    (hfc : ∀ c ∈ f, ¬ (c = '\t' ∨ c = '\r' ∨ c = '\n'))
    (hseg : s ∈ usesParams → ';' ∈ afterLastSlash u3 →
      (splitOnFirst ';' (afterLastSlash u3)).2 ≠ []) :
    urljoinQ base (urlunsplit s n u3 q f) = some (urlunsplit s n u3 q f) := by
  obtain ⟨hsv, hsl, hstrip, hsu, hsnet, hshead⟩ := usesRelative_facts s hsrel
  have hsplit := urlunsplit_resplit s n u3 q f s hsv hsl hstrip hsu hshead hn hnd hnu
    hbb hbh hu3 hqc hfc
  obtain ⟨sp, hspdef⟩ : ∃ sp : SplitParts,
      (⟨s, n, if u3 ≠ [] ∧ u3.head? ≠ some '/' then '/' :: u3 else u3, q, f⟩ :
        SplitParts) = sp := ⟨_, rfl⟩
  rw [hspdef] at hsplit
  have hsps : sp.scheme = s := by rw [← hspdef]
  have hspn : sp.netloc = n := by rw [← hspdef]
  have hspp : sp.path = (if u3 ≠ [] ∧ u3.head? ≠ some '/' then '/' :: u3 else u3) := by
    rw [← hspdef]
  have hspq : sp.query = q := by rw [← hspdef]
  have hspf : sp.fragment = f := by rw [← hspdef]
  have hparse : urlparseQ (urlunsplit s n u3 q f) s = some (urlparseCore sp) := by
    rw [urlparseQ, hsplit]
    rfl
  have hAL : afterLastSlash (if u3 ≠ [] ∧ u3.head? ≠ some '/' then '/' :: u3 else u3) =
      afterLastSlash u3 := by
    split
    · exact afterLastSlash_append_slash [] u3
    · rfl
  have hu' : sp.scheme ∈ usesParams → ';' ∈ afterLastSlash sp.path →
      (splitOnFirst ';' (afterLastSlash sp.path)).2 ≠ [] := by
    rw [hsps, hspp, hAL]
    exact hseg
  have hcond1 : ¬ ((urlparseCore sp).scheme ≠ s ∨
      (urlparseCore sp).scheme ∉ usesRelative) := by
    rw [urlparseCore_scheme, hsps]
    push_neg
    exact ⟨rfl, hsrel⟩
  have hcond2 : (urlparseCore sp).scheme ∈ usesNetloc ∧ (urlparseCore sp).netloc ≠ [] := by
    rw [urlparseCore_scheme, urlparseCore_netloc, hsps, hspn]
    exact ⟨hsnet, hn⟩
  rw [urljoinQ, if_neg hbne, if_neg (urlunsplit_ne_nil s n u3 q f hn), hb]
  simp only [bindO_some]
  rw [hbs, hparse]
  simp only [bindO_some]
  rw [if_neg hcond1, if_pos hcond2]
  show some (urlunparse (urlparseCore sp)) = some (urlunsplit s n u3 q f)
  rw [urlunparse, urlparseCore_rejoin sp hu', urlparseCore_scheme, urlparseCore_netloc,
    urlparseCore_query, urlparseCore_fragment, hsps, hspn, hspq, hspf, hspp,
    urlunsplit_fix s n u3 q f hn]

theorem urljoin_idem (base x y : Chars) (hauth : hasAuthority base = true)
    (hx : x ≠ []) (h : urljoinQ base x = some y) :
    urljoinQ base y = some y ∧ y ≠ [] := by
  rw [hasAuthority] at hauth
  rcases hpb : urlparseQ base [] with _ | b
  · rw [hpb] at hauth
    simp at hauth
  · rw [hpb] at hauth
    have hbn : b.netloc ≠ [] := by simpa using hauth
    have hbase : base ≠ [] := by
      intro hb0
      subst hb0
      rw [show urlparseQ ([] : Chars) ([] : Chars) =
        some ⟨[], [], [], [], [], []⟩ from by decide, Option.some.injEq] at hpb
      exact hbn (by rw [← hpb])
    have hj := h
    rw [urljoinQ, if_neg hbase, if_neg hx, hpb] at hj
    simp only [bindO_some] at hj
    rcases hpx : urlparseQ x b.scheme with _ | p
    · rw [hpx, bindO_none] at hj
      exact absurd hj (by simp)
    · rw [hpx] at hj
      simp only [bindO_some] at hj
      by_cases hA : p.scheme ≠ b.scheme ∨ p.scheme ∉ usesRelative
      · rw [if_pos hA] at hj
        rw [show (pure x : Option Chars) = some x from rfl, Option.some.injEq] at hj
        subst hj
        exact ⟨h, hx⟩
      · rw [if_neg hA] at hj
        push_neg at hA
        obtain ⟨hps, hrel⟩ := hA
        have hrelb : b.scheme ∈ usesRelative := hps ▸ hrel
        obtain ⟨hv1, hv2, hv3, hv4, hsnet, hv5⟩ := usesRelative_facts b.scheme hrelb
        obtain ⟨hpxn, hpxp, hpxm, hpxq, hpxf⟩ := urlparseQ_clean hpx
        obtain ⟨hpbn, hpbp, hpbm, hpbq, hpbf⟩ := urlparseQ_clean hpb
        by_cases hB : p.scheme ∈ usesNetloc ∧ p.netloc ≠ []
        · rw [if_pos hB] at hj
          have hyeq : some (urlunsplit p.scheme p.netloc
              (if p.params ≠ [] then p.path ++ ';' :: p.params else p.path)
              p.query p.fragment) = some y := hj
          rw [Option.some.injEq] at hyeq
          have hP : '/' ∉ p.params := fun hm => (hpxm '/' hm).2 rfl
          have hidem := urljoin_unsplit base p.scheme p.netloc
            (if p.params ≠ [] then p.path ++ ';' :: p.params else p.path)
            p.query p.fragment b hbase hpb hps.symm hrel hB.2
            (urlparseQ_netloc_clean hpx) hpxn
            (urlparseQ_netloc_brackets hpx).1 (urlparseQ_netloc_brackets hpx).2
            (join_params_clean p.path p.params hpxp (fun c hc => (hpxm c hc).1))
            hpxq hpxf
            (params_join_seg p.scheme p.path p.params
              (fun hs => urlparseQ_lastSeg hpx hs) hP)
          rw [← hyeq]
          exact ⟨hidem, urlunsplit_ne_nil _ _ _ _ _ hB.2⟩
        · rw [if_neg hB] at hj
          rw [show (if p.scheme ∈ usesNetloc then b.netloc else p.netloc) = b.netloc
            from if_pos (by rw [hps]; exact hsnet)] at hj
          by_cases hC : p.path = [] ∧ p.params = []
          · rw [if_pos hC] at hj
            have hyeq : some (urlunsplit p.scheme b.netloc
                (if b.params ≠ [] then b.path ++ ';' :: b.params else b.path)
                (if p.query = [] then b.query else p.query) p.fragment) = some y := hj
            rw [Option.some.injEq] at hyeq
            have hPb : '/' ∉ b.params := fun hm => (hpbm '/' hm).2 rfl
            have hqcC : ∀ c ∈ (if p.query = [] then b.query else p.query),
                c ≠ '#' ∧ ¬ (c = '\t' ∨ c = '\r' ∨ c = '\n') := by
              split
              · exact hpbq
              · exact hpxq
            have hidem := urljoin_unsplit base p.scheme b.netloc
              (if b.params ≠ [] then b.path ++ ';' :: b.params else b.path)
              (if p.query = [] then b.query else p.query) p.fragment b hbase hpb
              hps.symm hrel hbn (urlparseQ_netloc_clean hpb) hpbn
              (urlparseQ_netloc_brackets hpb).1 (urlparseQ_netloc_brackets hpb).2
              (join_params_clean b.path b.params hpbp (fun c hc => (hpbm c hc).1))
              hqcC hpxf
              (params_join_seg p.scheme b.path b.params
                (fun hs => urlparseQ_lastSeg hpb (hps ▸ hs)) hPb)
            rw [← hyeq]
            exact ⟨hidem, urlunsplit_ne_nil _ _ _ _ _ hbn⟩
          · rw [if_neg hC] at hj
            obtain ⟨SEG, hSEG⟩ : ∃ SEG,
                (if p.path.head? = some '/' then splitSlash p.path
                 else keepEndsFilterEmpty
                   ((if (splitSlash b.path).getLast? ≠ some [] then
                     (splitSlash b.path).dropLast else splitSlash b.path) ++
                    splitSlash p.path)) = SEG := ⟨_, rfl⟩
            rw [hSEG] at hj
            obtain ⟨RES, hRES⟩ : ∃ RES,
                (if SEG.getLast? = some ['.'] ∨ SEG.getLast? = some ['.', '.'] then
                  resolveSegs SEG ++ [[]] else resolveSegs SEG) = RES := ⟨_, rfl⟩
            rw [hRES] at hj
            obtain ⟨rp, hrp⟩ : ∃ rp, joinSlash RES = rp := ⟨_, rfl⟩
            rw [hrp] at hj
            have hyeq : some (urlunsplit p.scheme b.netloc
                (if p.params ≠ [] then
                  (if rp = [] then ['/'] else rp) ++ ';' :: p.params
                 else (if rp = [] then ['/'] else rp))
                p.query p.fragment) = some y := hj
            rw [Option.some.injEq] at hyeq
            have hrpc : ∀ c ∈ (if rp = [] then (['/'] : Chars) else rp),
                c ≠ '#' ∧ c ≠ '?' ∧ ¬ (c = '\t' ∨ c = '\r' ∨ c = '\n') := by
              split
              · intro c hc
                rw [List.mem_singleton] at hc
                subst hc
                exact ⟨by decide, by decide, by decide⟩
              · intro c hc
                rw [← hrp] at hc
                rcases mem_joinSlash hc with hc | ⟨xx, hxm, hcx⟩
                · subst hc
                  exact ⟨by decide, by decide, by decide⟩
                · rw [← hRES] at hxm
                  have hxin : xx ∈ SEG := by
                    split at hxm
                    · rcases List.mem_append.mp hxm with hxm | hxm
                      · exact mem_of_mem_resolveSegs hxm
                      · rw [List.mem_singleton] at hxm
                        subst hxm
                        simp at hcx
                    · exact mem_of_mem_resolveSegs hxm
                  rw [← hSEG] at hxin
                  rcases mem_segs_chars hxin c hcx with hcb | hcp
                  · exact hpbp c hcb
                  · exact hpxp c hcp
            have hals : p.scheme ∈ usesParams →
                ';' ∉ afterLastSlash (if rp = [] then (['/'] : Chars) else rp) := by
              intro hs hmem
              by_cases hrp0 : rp = []
              · rw [if_pos hrp0] at hmem
                exact absurd hmem (by decide)
              · rw [if_neg hrp0] at hmem
                by_cases hdot : SEG.getLast? = some ['.'] ∨
                    SEG.getLast? = some ['.', '.']
                · rw [if_pos hdot] at hRES
                  rw [← hrp, ← hRES,
                    afterLastSlash_joinSlash (resolveSegs SEG) [] (by simp)] at hmem
                  simp at hmem
                · rw [if_neg hdot] at hRES
                  have hzlast : SEG.getLast? = some (afterLastSlash p.path) := by
                    rw [← hSEG]
                    split
                    · exact getLast?_splitSlash p.path
                    · rw [getLast?_keepEnds
                        ((if (splitSlash b.path).getLast? ≠ some [] then
                          (splitSlash b.path).dropLast else splitSlash b.path) ++
                         splitSlash p.path)
                        (fun hnil =>
                          splitOnChar_ne_nil '/' p.path (List.append_eq_nil.mp hnil).2)]
                      obtain ⟨init, hinit⟩ := eq_append_of_getLast? (splitSlash p.path) _
                        (getLast?_splitSlash p.path)
                      rw [hinit, ← List.append_assoc, List.getLast?_concat]
                  have hz1 : afterLastSlash p.path ≠ ['.', '.'] := by
                    intro he
                    exact hdot (Or.inr (by rw [hzlast, he]))
                  have hz2 : afterLastSlash p.path ≠ ['.'] := by
                    intro he
                    exact hdot (Or.inl (by rw [hzlast, he]))
                  rw [← hrp, ← hRES, afterLast_resolve SEG (afterLastSlash p.path)
                    hzlast hz1 hz2 not_slash_mem_afterLastSlash] at hmem
                  exact urlparseQ_lastSeg hpx hs hmem
            have hP : '/' ∉ p.params := fun hm => (hpxm '/' hm).2 rfl
            have hidem := urljoin_unsplit base p.scheme b.netloc
              (if p.params ≠ [] then
                (if rp = [] then ['/'] else rp) ++ ';' :: p.params
               else (if rp = [] then ['/'] else rp))
              p.query p.fragment b hbase hpb hps.symm hrel hbn
              (urlparseQ_netloc_clean hpb) hpbn
              (urlparseQ_netloc_brackets hpb).1 (urlparseQ_netloc_brackets hpb).2
              (join_params_clean (if rp = [] then ['/'] else rp) p.params hrpc
                (fun c hc => (hpxm c hc).1))
              hpxq hpxf
              (params_join_seg p.scheme (if rp = [] then ['/'] else rp) p.params
                hals hP)
            rw [← hyeq]
            exact ⟨hidem, urlunsplit_ne_nil _ _ _ _ _ hbn⟩

theorem mapM_idem {α : Type} (f : α → Option α)
    (hf : ∀ a b, f a = some b → f b = some b) :
    ∀ (l l' : List α), l.mapM f = some l' → l'.mapM f = some l' := by
  intro l
  induction l with
  | nil =>
    intro l' h
    have h3 : some ([] : List α) = some l' := h
    rw [Option.some.injEq] at h3
    subst h3
    rfl
  | cons a t ih =>
    intro l' h
    rw [List.mapM_cons] at h
    rcases hfa : f a with _ | bl
    · rw [hfa, bindO_none] at h
      exact absurd h (by simp)
    · rw [hfa] at h
      simp only [bindO_some] at h
      rcases hmt : t.mapM f with _ | bs
      · rw [hmt, bindO_none] at h
        exact absurd h (by simp)
      · rw [hmt] at h
        simp only [bindO_some] at h
        have h3 : some (bl :: bs) = some l' := h
        rw [Option.some.injEq] at h3
        subst h3
        rw [List.mapM_cons, hf a bl hfa]
        simp only [bindO_some]
        rw [ih bs hmt]
        simp only [bindO_some]
        rfl

theorem convertRelativeUrls_idem (attrs attrs' : List (Option Chars)) (base : Chars)
    (hauth : hasAuthority base = true)
    (h : UrlNormalizer_convertRelativeUrls attrs base = some attrs') :
    UrlNormalizer_convertRelativeUrls attrs' base = some attrs' := by
  rw [UrlNormalizer_convertRelativeUrls] at h ⊢
  by_cases hb : base = []
  · rw [if_pos hb]
  · rw [if_neg hb] at h ⊢
    refine mapM_idem _ ?_ attrs attrs' h
    intro a u ha
    rcases a with _ | v
    · have h3 : some (none : Option Chars) = some u := ha
      rw [Option.some.injEq] at h3
      subst h3
      rfl
    · have h3 : (if v = [] then some (some v) else (urljoinQ base v).map some) =
          some u := ha
      by_cases hv : v = []
      · rw [if_pos hv, Option.some.injEq] at h3
        subst h3
        show (if v = [] then some (some v) else (urljoinQ base v).map some) =
          some (some v)
        rw [if_pos hv]
      · rw [if_neg hv] at h3
        rcases hje : urljoinQ base v with _ | w
        · rw [hje] at h3
          exact absurd h3 (by simp)
        · rw [hje, Option.map_some', Option.some.injEq] at h3
          subst h3
          obtain ⟨hi, hne⟩ := urljoin_idem base v w hauth hv hje
          show (if w = [] then some (some w) else (urljoinQ base w).map some) =
            some (some w)
          rw [if_neg hne, hi, Option.map_some']

theorem urlRewrite_idem_of (base url u : Chars) (skip : List Chars)
    (hauth : hasAuthority base = true) (hurl : url ≠ [])
    (h : (if startsWithOne skip url then some url else urljoinQ base url) = some u) :
    (if startsWithOne skip u then some u else urljoinQ base u) = some u := by
  by_cases hsk : startsWithOne skip url = true
  · rw [if_pos hsk, Option.some.injEq] at h
    subst h
    rw [if_pos hsk]
  · rw [if_neg hsk] at h
    obtain ⟨hi, _⟩ := urljoin_idem base url u hauth hurl h
    by_cases hsk2 : startsWithOne skip u = true
    · rw [if_pos hsk2]
    · rw [if_neg hsk2]
      exact hi

/-- Claim C5 (amended): over arbitrary inputs neither pass is idempotent
(`c5_counterexample`), but with a base URL that parses and carries an
authority — true of every `response.url` the crawl engine hands the spider —
normalization is idempotent at the level the code applies it: re-running the
HTML-attribute pass on its own output returns the output unchanged, and each
of the three Markdown rewrites maps an already-rewritten URL to itself. -/
theorem c5_normalization_idem (attrs attrs' : List (Option Chars))
    (base url v1 v2 v3 : Chars)
    (hauth : hasAuthority base = true) (hurl : url ≠ [])
    (hhtml : UrlNormalizer_convertRelativeUrls attrs base = some attrs')
    (him : imageUrlRewrite base url = some v1)
    (hlk : linkUrlRewrite base url = some v2)
    (hrf : refUrlRewrite base url = some v3) :
    UrlNormalizer_convertRelativeUrls attrs' base = some attrs' ∧
    imageUrlRewrite base v1 = some v1 ∧
    linkUrlRewrite base v2 = some v2 ∧
    refUrlRewrite base v3 = some v3 :=
  ⟨convertRelativeUrls_idem attrs attrs' base hauth hhtml,
   urlRewrite_idem_of base url v1 imageSkip hauth hurl him,
   urlRewrite_idem_of base url v2 linkSkip hauth hurl hlk,
   urlRewrite_idem_of base url v3 refSkip hauth hurl hrf⟩

/-- Witness for the amended C5 at a concrete authority-bearing base URL. -/
theorem c5_normalization_idem_witness :
    UrlNormalizer_convertRelativeUrls [some "http://e.com/a/x".data]
        "http://e.com/a/b".data = some [some "http://e.com/a/x".data] ∧
    imageUrlRewrite "http://e.com/a/b".data "http://e.com/a/x".data =
      some "http://e.com/a/x".data ∧
    linkUrlRewrite "http://e.com/a/b".data "http://e.com/a/x".data =
      some "http://e.com/a/x".data ∧
    refUrlRewrite "http://e.com/a/b".data "http://e.com/a/x".data =
      some "http://e.com/a/x".data :=
  c5_normalization_idem [some "x".data] [some "http://e.com/a/x".data]
    "http://e.com/a/b".data "x".data "http://e.com/a/x".data
    "http://e.com/a/x".data "http://e.com/a/x".data
    (by decide) (by decide) (by decide) (by decide) (by decide) (by decide)

/-- Witness for the amended C2 at two concrete URLs on the same host. -/
theorem c2_output_path_injective_witness :
    MarkdownSavePipeline_generateOutputPath "output".data
        "https://example.com/a/b.html".data ≠
      MarkdownSavePipeline_generateOutputPath "output".data
        "https://example.com/a/c.html".data := by
  exact c2_output_path_injective _ _
    ⟨"https".data, "example.com".data, "/a/b.html".data, [], [], []⟩
    ⟨"https".data, "example.com".data, "/a/c.html".data, [], [], []⟩
    (by decide) (by decide) (by decide) (by decide) (by decide) (by decide)

end BC
